import Mathlib

/-!
# jenkins-pr-collector: a shallow embedding and its verified properties

The development follows `src/jenkins-pr-collector.go`.

* Go strings are modelled as lists of characters (`GoString`); the functions of
  package `strings` that the program calls are defined on them.
* Go slices that may be `nil` are modelled by `Option (List α)`: `none` is the
  `nil` slice (encoded as `null` by `encoding/json`), `some []` the empty
  non-nil slice (encoded as `[]`).
* The Go map `map[string]PluginInfo` is modelled as a function from keys to
  optional values.
* The rate limiter and the GraphQL executor are the environment: the outcome of
  their k-th call is given by an oracle, and every call is recorded in a trace.
-/

set_option autoImplicit false

namespace JenkinsPrCollector

/-! ## Go strings -/

/-- Go strings, as sequences of characters. -/
abbrev GoString := List Char

namespace strings

/-- Go `strings.HasPrefix(s, pre)`. -/
def HasPrefix : GoString → GoString → Bool
  | _, [] => true
  | [], _ :: _ => false
  | c :: s, d :: p => if c = d then HasPrefix s p else false

/-- Go `strings.HasSuffix(s, suf)`. -/
def HasSuffix (s suf : GoString) : Bool :=
  HasPrefix s.reverse suf.reverse

/-- Go `strings.Index(s, sep)`: index of the first occurrence, `-1` if none. -/
def Index : GoString → GoString → Int
  | [], sep => if sep = [] then 0 else -1
  | c :: t, sep =>
    if HasPrefix (c :: t) sep then 0
    else
      let r := Index t sep
      if r < 0 then -1 else r + 1

/-- Go `strings.LastIndex(s, sep)`: index of the last occurrence, `-1` if none. -/
def LastIndex : GoString → GoString → Int
  | [], sep => if sep = [] then 0 else -1
  | c :: t, sep =>
    let r := LastIndex t sep
    if 0 ≤ r then r + 1
    else if HasPrefix (c :: t) sep then 0 else -1

/-- Go `strings.Contains(s, sub)`, which is `Index(s, sub) >= 0`. -/
def Contains (s sub : GoString) : Bool :=
  decide (0 ≤ Index s sub)

/-- Go `strings.TrimSuffix(s, suf)`. -/
def TrimSuffix (s suf : GoString) : GoString :=
  if HasSuffix s suf then s.take (s.length - suf.length) else s

/-- Worker of `Split`: `skip` counts the characters of a matched separator
still to be dropped, `cur` is the current piece, reversed. -/
def splitGo (sep : GoString) : GoString → Nat → GoString → List GoString
  | [], _, cur => [cur.reverse]
  | _ :: t, skip + 1, cur => splitGo sep t skip cur
  | c :: t, 0, cur =>
    if HasPrefix (c :: t) sep then cur.reverse :: splitGo sep t (sep.length - 1) []
    else splitGo sep t 0 (c :: cur)

/-- Go `strings.Split(s, sep)` for a non-empty separator; for the empty
separator Go explodes the string into its characters. -/
def Split (s sep : GoString) : List GoString :=
  if sep = [] then s.map (fun c => [c]) else splitGo sep s 0 []

end strings

/-- Go slice expression `s[i:j]` on a string. -/
def sliceStr (s : GoString) (i j : Nat) : GoString :=
  (s.take j).drop i

/-! ## Slices that may be nil -/

/-- A Go slice: `none` is `nil`, `some l` a non-nil slice with elements `l`. -/
abbrev GoSlice (α : Type) := Option (List α)

/-- Go `append(s, x)`. -/
def GoSlice.append {α : Type} (s : GoSlice α) (x : α) : GoSlice α :=
  match s with
  | none => some [x]
  | some l => some (l ++ [x])

/-- The elements of a slice (`nil` has none). -/
def GoSlice.elems {α : Type} (s : GoSlice α) : List α :=
  match s with
  | none => []
  | some l => l

/-- Go `len(s)`. -/
def GoSlice.len {α : Type} (s : GoSlice α) : Nat :=
  s.elems.length

/-! ## Calendar time (package `time`, UTC) -/

/-- A civil date of the proleptic Gregorian calendar. -/
structure Date where
  year : Int
  month : Nat
  day : Nat
  deriving DecidableEq, Repr

/-- A `time.Time` in UTC with second resolution: a civil date and the second
of the day. -/
structure Time where
  date : Date
  sec : Nat
  deriving DecidableEq, Repr

/-- Leap years of the proleptic Gregorian calendar. -/
def isLeap (y : Int) : Bool :=
  y % 4 == 0 && (y % 100 != 0 || y % 400 == 0)

/-- Number of days of month `m` of year `y`. -/
def daysIn (y : Int) (m : Nat) : Nat :=
  if m = 2 then (if isLeap y then 29 else 28)
  else if m = 4 ∨ m = 6 ∨ m = 9 ∨ m = 11 then 30
  else 31

/-- A date is valid when its month and day are in range. -/
def Date.valid (d : Date) : Prop :=
  1 ≤ d.month ∧ d.month ≤ 12 ∧ 1 ≤ d.day ∧ d.day ≤ daysIn d.year d.month

instance (d : Date) : Decidable d.valid := by
  unfold Date.valid; infer_instance

/-- The day after `d`. -/
def Date.next (d : Date) : Date :=
  if d.day < daysIn d.year d.month then { d with day := d.day + 1 }
  else if d.month < 12 then { d with month := d.month + 1, day := 1 }
  else { year := d.year + 1, month := 1, day := 1 }

/-- The day before `d`. -/
def Date.prev (d : Date) : Date :=
  if 1 < d.day then { d with day := d.day - 1 }
  else if 1 < d.month then
    { d with month := d.month - 1, day := daysIn d.year (d.month - 1) }
  else { year := d.year - 1, month := 12, day := 31 }

/-- Chronological order of dates, as a boolean. -/
def Date.lt (a b : Date) : Bool :=
  decide (a.year < b.year) ||
    (decide (a.year = b.year) &&
      (decide (a.month < b.month) ||
        (decide (a.month = b.month) && decide (a.day < b.day))))

/-- Non-strict chronological order of dates. -/
def Date.le (a b : Date) : Bool :=
  a.lt b || decide (a = b)

/-- Go `time.Date(year, month, day, ...)` restricted to the date part: month
and day may be out of range and are normalised, the month first (carrying into
the year), then the day counted from the first of that month. -/
def normDate (y m d : Int) : Date :=
  let first : Date :=
    { year := y + (m - 1) / 12, month := ((m - 1) % 12).toNat + 1, day := 1 }
  if 1 ≤ d then Nat.iterate Date.next (d - 1).toNat first
  else Nat.iterate Date.prev (1 - d).toNat first

/-- Go `t.AddDate(years, months, days)`: the clock time is kept. -/
def Time.AddDate (t : Time) (years months days : Int) : Time :=
  { date := normDate (t.date.year + years) ((t.date.month : Int) + months)
      ((t.date.day : Int) + days),
    sec := t.sec }

/-- Go `t.Add(d)` for a non-negative duration of `secs` seconds. -/
def Time.Add (t : Time) (secs : Nat) : Time :=
  { date := Nat.iterate Date.next ((t.sec + secs) / 86400) t.date,
    sec := (t.sec + secs) % 86400 }

/-- Go `t.Before(u)`. -/
def Time.Before (t u : Time) : Bool :=
  t.date.lt u.date || (decide (t.date = u.date) && decide (t.sec < u.sec))

/-- Go `t.After(u)`. -/
def Time.After (t u : Time) : Bool :=
  u.Before t

/-- Go `t.Day()`. -/
def Time.Day (t : Time) : Nat := t.date.day

/-- The value `time.Parse("2006-01-02", s)` yields for the date `d`:
midnight UTC of that day. -/
def parsedDate (d : Date) : Time := { date := d, sec := 0 }

/-! ## Data model -/

/-- One node of `GraphQLSearchResponse.Search.Nodes`. `Labels` holds the
names of `Labels.Nodes`, `Commits` the rollup states of `Commits.Nodes`. -/
structure SearchNode where
  Number : Int
  Title : GoString
  State : GoString
  CreatedAt : Time
  UpdatedAt : Time
  URL : GoString
  RepositoryName : GoString
  RepositoryOwnerLogin : GoString
  AuthorLogin : GoString
  BodyText : GoString
  Labels : List GoString
  Commits : List GoString
  deriving DecidableEq, Repr

/-- The decoded `GraphQLSearchResponse`. -/
structure GraphQLSearchResponse where
  HasNextPage : Bool
  EndCursor : GoString
  Nodes : List SearchNode
  deriving DecidableEq, Repr

/-- The record collected for a pull request (`PullRequestData`). -/
structure PullRequestData where
  Number : Int
  Title : GoString
  State : GoString
  CreatedAt : Time
  UpdatedAt : Time
  User : GoString
  Repository : GoString
  PluginName : GoString
  Labels : GoSlice GoString
  URL : GoString
  Description : GoString
  CheckStatus : GoString
  deriving DecidableEq, Repr

/-- The value type of the registry (`PluginInfo`). -/
structure PluginInfo where
  Name : GoString
  SCM : GoString
  deriving DecidableEq, Repr

/-- The Go map `map[string]PluginInfo`. -/
abbrev Registry := GoString → Option PluginInfo

/-- The empty map, `make(map[string]PluginInfo)`. -/
def Registry.empty : Registry := fun _ => none

/-- Map assignment `m[k] = v`. -/
def Registry.set (m : Registry) (k : GoString) (v : PluginInfo) : Registry :=
  fun q => if q = k then some v else m q

/-- The two-valued map read `v, ok := m[k]`: the zero value when absent. -/
def Registry.get (m : Registry) (k : GoString) : PluginInfo × Bool :=
  match m k with
  | some v => (v, true)
  | none => ({ Name := [], SCM := [] }, false)

/-! ## fetchJenkinsPluginInfo -/

/-- The marker looked for in an SCM URL. -/
def scmMarker : GoString := "github.com/jenkinsci/".toList

/-- The opening brace. -/
def lbrace : Char := Char.ofNat 123

/-- The closing brace. -/
def rbrace : Char := Char.ofNat 125

/-- The callback text the body handling tests for (source line 309). -/
def callbackText : GoString := "updateCenter.post(".toList

/-- The error of the body handling (source line 317). -/
def invalidFormatText : GoString := "invalid update center JSON format".toList

/-- The text handed to `json.Unmarshal` for a response body, or the error
returned before parsing (source lines 308-319). -/
def extractJSON (body : GoString) : Except GoString GoString :=
  let jsonStr := body
  if strings.HasPrefix jsonStr callbackText then
    let startIdx := strings.Index jsonStr [lbrace]
    let endIdx := strings.LastIndex jsonStr [rbrace]
    if 0 ≤ startIdx ∧ 0 ≤ endIdx ∧ startIdx < endIdx then
      .ok (sliceStr jsonStr startIdx.toNat (endIdx.toNat + 1))
    else
      .error invalidFormatText
  else
    .ok jsonStr

/-- The key derived from an SCM URL, if the entry is registered at all
(source lines 331-342). -/
def repoKey (scm : GoString) : Option GoString :=
  if scm ≠ [] then
    let repoURL := scm
    if strings.Contains repoURL scmMarker then
      let parts := strings.Split repoURL scmMarker
      if 1 < parts.length then
        let repoName := strings.TrimSuffix (parts.getD 1 []) ".git".toList
        let repoName := strings.TrimSuffix repoName "/".toList
        some repoName
      else none
    else none
  else none

/-- One iteration of the loop over `updateCenter.Plugins` (source lines
330-350): `name` is the map key, `scm` the entry's `SCM` field. -/
def registerPlugin (pluginRepos : Registry) (entry : GoString × GoString) : Registry :=
  match repoKey entry.2 with
  | some repoName => pluginRepos.set repoName { Name := entry.1, SCM := entry.2 }
  | none => pluginRepos

/-- The registry built from the plugin entries of the update center, visited
in the order `entries` (Go leaves the enumeration order of a map unspecified). -/
def buildRegistry (entries : List (GoString × GoString)) : Registry :=
  entries.foldl registerPlugin Registry.empty

/-- The function `fetchJenkinsPluginInfo` from the response body on (source
lines 306-352); the HTTP download with its retries (lines 262-304) is left
out. `unmarshal` stands for `json.Unmarshal` followed by the enumeration of
`updateCenter.Plugins`: it yields the plugin entries (map key and `scm`) in
the order the map is ranged over. -/
def fetchJenkinsPluginInfo
    (unmarshal : GoString → Except GoString (List (GoString × GoString)))
    (body : GoString) : Except GoString Registry :=
  match extractJSON body with
  | .error e => .error e
  | .ok jsonStr =>
    match unmarshal jsonStr with
    | .error e => .error ("failed to parse update center data: ".toList ++ e)
    | .ok entries => .ok (buildRegistry entries)

/-! ## getCommitStatus -/

/-- Source lines 417-435; `commits` lists the rollup state of each node. -/
def getCommitStatus (commits : List GoString) : GoString :=
  match commits with
  | [] => "UNKNOWN".toList
  | state :: _ => if state = [] then "UNKNOWN".toList else state

/-! ## fetchPullRequestsGraphQL -/

/-- The variables of a query: the search string and the cursor (`nil` at
first). -/
structure Variables where
  query : GoString
  cursor : Option GoString
  deriving DecidableEq, Repr

/-- What the program does to its environment, in order. -/
inductive Event where
  /-- A call of `limiter.Wait`, with its error if it failed. -/
  | wait (err : Option GoString)
  /-- A call of `client.ExecuteGraphQL`, with its outcome. -/
  | exec (vars : Variables) (outcome : Except GoString GraphQLSearchResponse)
  /-- A call of `time.Sleep`, in seconds. -/
  | sleep (secs : Nat)

/-- The environment: the outcome of the k-th limiter wait and of the k-th
executor call (which may depend on the variables sent). -/
structure Env where
  limiter : Nat → Option GoString
  execute : Nat → Variables → Except GoString GraphQLSearchResponse

/-- The mutable state of a run: the call counters of the environment, the
local slice `allPRs`, the global slice `allFoundPRs`, and the trace. -/
structure RunState where
  waits : Nat
  calls : Nat
  allPRs : GoSlice PullRequestData
  allFoundPRs : GoSlice PullRequestData
  trace : List Event

/-- The state a run starts from, with the global `allFoundPRs` as given. -/
def RunState.init (allFound : GoSlice PullRequestData) : RunState :=
  { waits := 0, calls := 0, allPRs := none, allFoundPRs := allFound, trace := [] }

/-- Go `fmt.Sprintf("%s/%s", owner, name)`. -/
def repositoryField (pr : SearchNode) : GoString :=
  pr.RepositoryOwnerLogin ++ "/".toList ++ pr.RepositoryName

/-- The record appended to `allFoundPRs` (source lines 574-588). -/
def foundRecord (pluginRepos : Registry) (pr : SearchNode) : PullRequestData :=
  let pluginInfo := (pluginRepos.get pr.RepositoryName).1
  { Number := pr.Number, Title := pr.Title, State := pr.State,
    CreatedAt := pr.CreatedAt, UpdatedAt := pr.UpdatedAt,
    User := pr.AuthorLogin, Repository := repositoryField pr,
    PluginName := pluginInfo.Name, Labels := some [],
    URL := pr.URL, Description := pr.BodyText,
    CheckStatus := getCommitStatus pr.Commits }

/-- The label loop (source lines 609-612): `var labels []string` and one
`append` per label node. -/
def collectLabels (names : List GoString) : GoSlice GoString :=
  names.foldl GoSlice.append none

/-- The record appended to `allPRs` (source lines 609-627). -/
def matchedRecord (pluginRepos : Registry) (pr : SearchNode) : PullRequestData :=
  let pluginInfo := (pluginRepos.get pr.RepositoryName).1
  let labels := collectLabels pr.Labels
  { Number := pr.Number, Title := pr.Title, State := pr.State,
    CreatedAt := pr.CreatedAt, UpdatedAt := pr.UpdatedAt,
    User := pr.AuthorLogin, Repository := repositoryField pr,
    PluginName := pluginInfo.Name, Labels := labels,
    URL := pr.URL, Description := pr.BodyText,
    CheckStatus := getCommitStatus pr.Commits }

/-- The local `dependabotUser` (source line 600). -/
def dependabotUser : GoString := "dependabot".toList

/-- The local `renovateUser` (source line 601). -/
def renovateUser : GoString := "renovate".toList

/-- The first literal searched for in the body (source line 607). -/
def modernizerMark : GoString := "odernizer".toList

/-- The second literal searched for in the body (source line 607). -/
def recipeMark : GoString := "recipe".toList

/-- The body of the loop over the nodes of a page (source lines 563-636). -/
def processNode (pluginRepos : Registry) (st : RunState) (pr : SearchNode) : RunState :=
  let isPlugin := (pluginRepos.get pr.RepositoryName).2
  let st := { st with allFoundPRs := st.allFoundPRs.append (foundRecord pluginRepos pr) }
  if !isPlugin then st
  else if pr.AuthorLogin = dependabotUser ∨ pr.AuthorLogin = renovateUser then st
  else if strings.Contains pr.BodyText modernizerMark
      || strings.Contains pr.BodyText recipeMark then
    { st with allPRs := st.allPRs.append (matchedRecord pluginRepos pr) }
  else st

/-- The loop over the nodes of a page. -/
def processNodes (pluginRepos : Registry) (st : RunState) (nodes : List SearchNode) :
    RunState :=
  nodes.foldl (processNode pluginRepos) st

/-- The literal looked for in an error message (source line 537). -/
def rateLimitText : GoString := "rate limit".toList

/-- The prefix of the error returned once the attempts are used up (line 555). -/
def afterRetriesText : GoString := "error executing GraphQL query after retries: ".toList

/-- The prefix of the error returned when `limiter.Wait` fails (line 521). -/
def rateLimiterText : GoString := "rate limiter error: ".toList

/-- How the retry loop of one page ends: with the decoded response, or with
the error `fetchPullRequestsGraphQL` returns. -/
abbrev PageFetch := Except GoString GraphQLSearchResponse

/-- The retry loop of one page (source lines 530-556), over the remaining
values of `attempt`; `err` is the variable `err` (`none` is `nil`). -/
def retryLoop (env : Env) (vars : Variables) :
    List Nat → Option GoString → RunState → PageFetch × RunState
  | [], err, st =>
    match err with
    | some e => (.error (afterRetriesText ++ e), st)
    | none => (.ok { HasNextPage := false, EndCursor := [], Nodes := [] }, st)
  | attempt :: rest, _, st =>
    let outcome := env.execute st.calls vars
    let st := { st with calls := st.calls + 1, trace := st.trace ++ [Event.exec vars outcome] }
    match outcome with
    | .ok response => (.ok response, st)
    | .error e =>
      if strings.Contains e rateLimitText then
        let waitTime := (attempt + 1) * 5
        retryLoop env vars rest (some e) { st with trace := st.trace ++ [Event.sleep waitTime] }
      else if attempt = 4 then (.error e, st)
      else
        let waitTime := (attempt + 1) * 2
        retryLoop env vars rest (some e) { st with trace := st.trace ++ [Event.sleep waitTime] }

/-- The values `attempt` takes in `for attempt := 0; attempt < 5; attempt++`. -/
def attempts : List Nat := [0, 1, 2, 3, 4]

/-- The page loop of one window (source lines 518-644). `none` means the
iteration budget `fuel` ran out; otherwise the error returned, if any. -/
def pageLoop (env : Env) (pluginRepos : Registry) :
    Nat → Variables → RunState → Option (Option GoString × RunState)
  | 0, _, _ => none
  | fuel + 1, vars, st =>
    let w := env.limiter st.waits
    let st := { st with waits := st.waits + 1, trace := st.trace ++ [Event.wait w] }
    match w with
    | some e => some (some (rateLimiterText ++ e), st)
    | none =>
      match retryLoop env vars attempts none st with
      | (.error e, st) => some (some e, st)
      | (.ok response, st) =>
        let st := processNodes pluginRepos st response.Nodes
        if response.HasNextPage then
          pageLoop env pluginRepos fuel { vars with cursor := some response.EndCursor } st
        else some (none, st)

/-- Go `appendInt(b, x, width)` of package `time`: decimal digits, padded
with zeros to `width`, with a leading minus sign for a negative value. -/
def appendInt (x : Int) (width : Nat) : GoString :=
  let ds := Nat.toDigits 10 x.natAbs
  let padded := List.replicate (width - ds.length) (Char.ofNat 48) ++ ds
  if x < 0 then Char.ofNat 45 :: padded else padded

/-- Go `t.Format("2006-01-02")`. -/
def Time.Format (t : Time) : GoString :=
  appendInt t.date.year 4 ++ [Char.ofNat 45] ++ appendInt t.date.month 2
    ++ [Char.ofNat 45] ++ appendInt t.date.day 2

/-- The end of the window that starts at `startDate` (source lines 498-501). -/
def windowEnd (startDate endDate : Time) : Time :=
  let currentEndDate := startDate.AddDate 0 1 (-(startDate.Day : Int))
  if currentEndDate.After endDate then endDate else currentEndDate

/-- Go `fmt.Sprintf("org:%s is:pr created:%s..%s", org, ...)` (lines 504-507). -/
def searchQuery (org : GoString) (startDate currentEndDate : Time) : GoString :=
  "org:".toList ++ org ++ " is:pr created:".toList ++ startDate.Format
    ++ "..".toList ++ currentEndDate.Format

/-- The month-window loop on its own (source lines 496-501 and 649): the
windows it visits, as pairs of calendar dates (what `Format("2006-01-02")`
prints of `startDate` and `currentEndDate`). `none` means the iteration budget
ran out before the loop condition became false. -/
def monthWindows : Nat → Time → Time → Option (List (Date × Date))
  | 0, startDate, endDate => if startDate.Before endDate then none else some []
  | fuel + 1, startDate, endDate =>
    if startDate.Before endDate then
      let currentEndDate := windowEnd startDate endDate
      match monthWindows fuel (currentEndDate.AddDate 0 0 1) endDate with
      | some ws => some ((startDate.date, currentEndDate.date) :: ws)
      | none => none
    else some []

/-- The window loop with its page loops (source lines 496-650). `none`
means an iteration budget ran out; otherwise the error returned, if any. -/
def windowLoop (env : Env) (pluginRepos : Registry) (endDate : Time) (pageFuel : Nat) :
    Nat → Time → RunState → Option (Option GoString × RunState)
  | 0, startDate, st => if startDate.Before endDate then none else some (none, st)
  | fuel + 1, startDate, st =>
    if startDate.Before endDate then
      let currentEndDate := windowEnd startDate endDate
      let vars : Variables :=
        { query := searchQuery "jenkinsci".toList startDate currentEndDate, cursor := none }
      match pageLoop env pluginRepos pageFuel vars st with
      | none => none
      | some (some e, st) => some (some e, st)
      | some (none, st) => windowLoop env pluginRepos endDate pageFuel fuel
          (currentEndDate.AddDate 0 0 1) st
    else some (none, st)

/-- The fields of `Config` the run reads. -/
structure Config where
  StartDate : Time
  EndDate : Time
  OutputFile : GoString
  FoundPullRequestsFile : GoString

/-- What `fetchPullRequestsGraphQL` returns, with the final state:
`result` is the returned slice (`nil` on error), `err` the returned error. -/
structure FetchResult where
  result : GoSlice PullRequestData
  err : Option GoString
  final : RunState

/-- The function `fetchPullRequestsGraphQL` (source lines 437-653), run with
the global `allFoundPRs` initially `allFound`. `windowFuel` and `pageFuel`
bound the iterations of the window loop and of each page loop. -/
def fetchPullRequestsGraphQL (env : Env) (config : Config) (pluginRepos : Registry)
    (allFound : GoSlice PullRequestData) (windowFuel pageFuel : Nat) : Option FetchResult :=
  match windowLoop env pluginRepos config.EndDate pageFuel windowFuel config.StartDate
      (RunState.init allFound) with
  | none => none
  | some (some e, st) => some { result := none, err := some e, final := st }
  | some (none, st) => some { result := st.allPRs, err := none, final := st }

/-- How `main` ends: the fatal message if it stopped through `log.Fatalf`,
and the files `writeJSONFile` wrote without error, in order, each with the
slice encoded into it. -/
structure MainOutcome where
  fatal : Option GoString
  writes : List (GoString × GoSlice PullRequestData)

/-- The configuration `main` builds from the parsed dates (lines 183-207):
the end date is moved to the last second of its day. -/
def mkConfig (startDate endDate : Date) (outputFile foundFile : GoString) : Config :=
  { StartDate := parsedDate startDate,
    EndDate := (parsedDate endDate).Add (24 * 3600 - 1),
    OutputFile := outputFile, FoundPullRequestsFile := foundFile }

/-- The text `main` puts before the error of the fetch (source line 235). -/
def fetchFatalText : GoString := "Failed to fetch pull requests: ".toList

/-- The part of `main` after the registry is loaded (source lines 231-257).
`writeErr` gives the error of `writeJSONFile` for a file name, if any; a file
whose write fails (`os.Create` or the encoder) is not counted as written. -/
def mainAfterRegistry (env : Env) (writeErr : GoString → Option GoString) (config : Config)
    (pluginRepos : Registry) (windowFuel pageFuel : Nat) : Option MainOutcome :=
  match fetchPullRequestsGraphQL env config pluginRepos none windowFuel pageFuel with
  | none => none
  | some r =>
    match r.err with
    | some e => some { fatal := some (fetchFatalText ++ e), writes := [] }
    | none =>
      let pullRequests := r.result
      let allFoundPRs := r.final.allFoundPRs
      match writeErr config.OutputFile with
      | some e =>
        some { fatal := some ("Failed to write output file: ".toList ++ e), writes := [] }
      | none =>
        if 0 < allFoundPRs.len then
          match writeErr config.FoundPullRequestsFile with
          | some e =>
            some { fatal := some ("Failed to write found PRs file: ".toList ++ e),
                   writes := [(config.OutputFile, pullRequests)] }
          | none =>
            some { fatal := none,
                   writes := [(config.OutputFile, pullRequests),
                              (config.FoundPullRequestsFile, allFoundPRs)] }
        else some { fatal := none, writes := [(config.OutputFile, pullRequests)] }

/-! ## Reading a trace -/

/-- The search results received: the nodes of every successful executor
call, in the order of the calls and, within a page, as returned. -/
def received : List Event → List SearchNode
  | [] => []
  | Event.exec _ (.ok response) :: rest => response.Nodes ++ received rest
  | _ :: rest => received rest

/-- The filter as the specification words it: the repository name is a key
of the registry, the author is neither bot, and the body contains one of the
two substrings. -/
def specPassesFilter (pluginRepos : Registry) (pr : SearchNode) : Prop :=
  pluginRepos pr.RepositoryName ≠ none
    ∧ pr.AuthorLogin ≠ dependabotUser
    ∧ pr.AuthorLogin ≠ renovateUser
    ∧ (modernizerMark <:+: pr.BodyText ∨ recipeMark <:+: pr.BodyText)

instance (pluginRepos : Registry) (pr : SearchNode) :
    Decidable (specPassesFilter pluginRepos pr) := by
  unfold specPassesFilter; infer_instance

/-- The nodes a page fetch hands to the node loop. -/
def fetchedNodes (r : PageFetch) : List SearchNode :=
  match r with
  | .ok response => response.Nodes
  | .error _ => []

/-- What the two collections hold in terms of the results received so far:
`allFoundPRs` is its initial content `found0` followed by one record per
result, `allPRs` one record per result that passes the filter. -/
def Collected (pluginRepos : Registry) (found0 : List PullRequestData) (st : RunState) : Prop :=
  st.allFoundPRs.elems = found0 ++ (received st.trace).map (foundRecord pluginRepos)
  ∧ st.allPRs.elems =
      ((received st.trace).filter (fun pr => decide (specPassesFilter pluginRepos pr))).map
        (matchedRecord pluginRepos)

/-! ## Sample inputs -/

/-- A sample registry entry list: one plugin hosted at `jenkinsci/git-plugin`. -/
def sampleEntries : List (GoString × GoString) :=
  [("git".toList, "https://github.com/jenkinsci/git-plugin".toList)]

/-- The registry built from `sampleEntries`. -/
def sampleRegistry : Registry := buildRegistry sampleEntries

/-- A sample pull request: in the registry, by `alice`, mentioning the recipe. -/
def sampleNode : SearchNode :=
  { Number := 7, Title := "Modernize".toList, State := "OPEN".toList,
    CreatedAt := { date := ⟨2024, 1, 15⟩, sec := 60 },
    UpdatedAt := { date := ⟨2024, 1, 16⟩, sec := 0 },
    URL := "https://github.com/jenkinsci/git-plugin/pull/7".toList,
    RepositoryName := "git-plugin".toList, RepositoryOwnerLogin := "jenkinsci".toList,
    AuthorLogin := "alice".toList,
    BodyText := "This uses the plugin-Modernizer recipe".toList,
    Labels := ["dependencies".toList, "chore".toList],
    Commits := ["SUCCESS".toList] }

/-- The same pull request, written by a bot. -/
def sampleBotNode : SearchNode := { sampleNode with Number := 8, AuthorLogin := "dependabot".toList }

/-- The same pull request, in a repository the registry does not know. -/
def sampleForeignNode : SearchNode :=
  { sampleNode with Number := 9, RepositoryName := "jenkins".toList }

/-- A one-page response with the three sample pull requests. -/
def samplePage : GraphQLSearchResponse :=
  { HasNextPage := false, EndCursor := [],
    Nodes := [sampleNode, sampleBotNode, sampleForeignNode] }

/-- An environment whose limiter always admits and whose executor always
answers with `samplePage`. -/
def sampleEnv : Env :=
  { limiter := fun _ => none, execute := fun _ _ => .ok samplePage }

/-- The configuration for the single day 2024-01-15. -/
def sampleConfig : Config :=
  mkConfig ⟨2024, 1, 15⟩ ⟨2024, 1, 15⟩ "jenkins_prs.json".toList "found_prs.json".toList

/-- The variables of the only query of the sample run. -/
def sampleVars : Variables :=
  { query := "org:jenkinsci is:pr created:2024-01-15..2024-01-15".toList, cursor := none }

/-- The result of the sample run. -/
def sampleResult : FetchResult :=
  { result := some [matchedRecord sampleRegistry sampleNode],
    err := none,
    final :=
      { waits := 1, calls := 1,
        allPRs := some [matchedRecord sampleRegistry sampleNode],
        allFoundPRs := some [foundRecord sampleRegistry sampleNode,
          foundRecord sampleRegistry sampleBotNode, foundRecord sampleRegistry sampleForeignNode],
        trace := [Event.wait none, Event.exec sampleVars (.ok samplePage)] } }

/-- The last day of the month of `d`. -/
def lastDayOfMonth (d : Date) : Date :=
  { d with day := daysIn d.year d.month }

/-- The index of the calendar month of `d`, counted in months. -/
def monthIndex (d : Date) : Int :=
  d.year * 12 + d.month

/-- The number of calendar months the range from `s` to `e` touches. -/
def monthsTouched (s e : Date) : Nat :=
  (monthIndex e - monthIndex s + 1).toNat

/-- The windows as the specification words them: `n` windows, the first
starting at `cur`, each ending at the last day of its starting month or at
`e`, whichever is earlier, each later one starting the day after the previous
one ended. -/
def specWindows : Nat → Date → Date → List (Date × Date)
  | 0, _, _ => []
  | n + 1, cur, e =>
    let windowLast := if (lastDayOfMonth cur).lt e then lastDayOfMonth cur else e
    (cur, windowLast) :: specWindows n windowLast.next e

/-- The outcomes of the next `n` executor calls, the first being call number
`c`, all sent the variables `vars`. -/
def outcomesFrom (env : Env) (vars : Variables) (c n : Nat) : List PageFetch :=
  (List.range n).map (fun j => env.execute (c + j) vars)

/-- The retry policy as the specification words it, as a trace: attempt `i`
(counted from 1) calls the executor; a success ends the fetch; after a failure
the loop sleeps `5 * i` seconds when the message contains `rate limit` and
`2 * i` seconds otherwise, except that a failure of the other kind on attempt 5
ends the fetch without sleeping. -/
def specRetryTrace (vars : Variables) : Nat → List PageFetch → List Event
  | _, [] => []
  | _, .ok response :: _ => [Event.exec vars (.ok response)]
  | i, .error e :: rest =>
    Event.exec vars (.error e) ::
      (if rateLimitText <:+: e then Event.sleep (5 * i) :: specRetryTrace vars (i + 1) rest
       else if i = 5 then []
       else Event.sleep (2 * i) :: specRetryTrace vars (i + 1) rest)

/-- Whether an event is an executor call. -/
def Event.isExec : Event → Bool
  | Event.exec _ _ => true
  | _ => false

/-- The result of the retry loop as a function of the outcomes still to come
and of the last error seen. -/
def retryResult : Nat → List PageFetch → Option GoString → PageFetch
  | _, [], some e => .error (afterRetriesText ++ e)
  | _, [], none => .ok { HasNextPage := false, EndCursor := [], Nodes := [] }
  | _, .ok response :: _, _ => .ok response
  | i, .error e :: rest, _ =>
    if rateLimitText <:+: e then retryResult (i + 1) rest (some e)
    else if i = 5 then .error e
    else retryResult (i + 1) rest (some e)

/-- An environment whose executor always fails with the message `msg`. -/
def failingEnv (msg : GoString) : Env :=
  { limiter := fun _ => none, execute := fun _ _ => .error msg }

/-- The seconds slept in a trace, in order. -/
def sleeps : List Event → List Nat
  | [] => []
  | Event.sleep n :: rest => n :: sleeps rest
  | _ :: rest => sleeps rest

/-- The reading of a trace in which every executor call is preceded by a
limiter admission of its own: `admitted` tells whether an admission has been
obtained and not yet used by a call. -/
def ownWait : Bool → List Event → Bool
  | _, [] => true
  | _, Event.wait none :: rest => ownWait true rest
  | _, Event.wait (some _) :: rest => ownWait false rest
  | admitted, Event.exec _ _ :: rest => admitted && ownWait false rest
  | admitted, Event.sleep _ :: rest => ownWait admitted rest

/-- The states of the pacing automaton. `idle`: no limiter admission is
open (at the start, and after a successful executor call). `admitted`: the
limiter has admitted a page fetch and no call has been made yet. `failed k`:
the `k`-th call under the open admission has just failed. `slept k`: the
backoff sleep after that failed call is over. `closed`: a limiter wait has
failed. -/
inductive Pace where
  | idle
  | admitted
  | failed (k : Nat)
  | slept (k : Nat)
  | closed
  deriving DecidableEq, Repr

/-- One step of the pacing automaton (`none` rejects the event). The limiter
is waited on only while no admission is open. The first call of a page fetch
needs a fresh admission. A successful call uses the admission up, so the next
call needs a wait of its own. A further call under the same admission is made
only after a failed call and its backoff sleep, and only while fewer than 5
calls have been made. Nothing may follow a failed wait. -/
def paceStep : Pace → Event → Option Pace
  | Pace.idle, Event.wait none => some Pace.admitted
  | Pace.idle, Event.wait (some _) => some Pace.closed
  | Pace.admitted, Event.exec _ (.ok _) => some Pace.idle
  | Pace.admitted, Event.exec _ (.error _) => some (Pace.failed 1)
  | Pace.failed k, Event.sleep _ => some (Pace.slept k)
  | Pace.slept k, Event.exec _ (.ok _) => if k < 5 then some Pace.idle else none
  | Pace.slept k, Event.exec _ (.error _) => if k < 5 then some (Pace.failed (k + 1)) else none
  | _, _ => none

/-- The pacing automaton run over a trace. -/
def paceRun : Pace → List Event → Option Pace
  | s, [] => some s
  | s, ev :: rest =>
    match paceStep s ev with
    | some s2 => paceRun s2 rest
    | none => none

/-- A trace of a finished run is paced when the automaton accepts it from
`idle` and ends where a run can end: with no admission open, after a failed
wait, or after the fifth failed call of a page fetch (and its sleep, if any). -/
def paced (trace : List Event) : Bool :=
  match paceRun Pace.idle trace with
  | some Pace.idle => true
  | some Pace.closed => true
  | some (Pace.failed k) => decide (k = 5)
  | some (Pace.slept k) => decide (k = 5)
  | _ => false

/-- An environment whose first executor call fails with `timeout` and whose
later calls answer with `samplePage`. -/
def flakyEnv : Env :=
  { limiter := fun _ => none,
    execute := fun k _ => if k = 0 then .error "timeout".toList else .ok samplePage }

/-- A page like `samplePage` that announces a further page. -/
def samplePageMore : GraphQLSearchResponse :=
  { samplePage with HasNextPage := true, EndCursor := "cursor1".toList }

/-- An environment that serves one page announcing a further one, and whose
limiter then fails the second wait as a cancelled context does. -/
def cancelledEnv : Env :=
  { limiter := fun k => if k = 0 then none else some "context canceled".toList,
    execute := fun _ _ => .ok samplePageMore }

/-- How a loop stands when it is observed: it has ended normally, it has
returned an error, or the iteration budget ran out while it was still going. -/
inductive LoopEnd where
  | done
  | failed (e : GoString)
  | outOfFuel

/-- The page loop of one window (source lines 518-644) observed with its
state: the same steps as `pageLoop`, but when the budget runs out the state
reached so far is kept, so that executions that do not end can be spoken of. -/
def pageLoopRun (env : Env) (pluginRepos : Registry) :
    Nat → Variables → RunState → LoopEnd × RunState
  | 0, _, st => (LoopEnd.outOfFuel, st)
  | fuel + 1, vars, st =>
    let w := env.limiter st.waits
    let st := { st with waits := st.waits + 1, trace := st.trace ++ [Event.wait w] }
    match w with
    | some e => (LoopEnd.failed (rateLimiterText ++ e), st)
    | none =>
      match retryLoop env vars attempts none st with
      | (.error e, st) => (LoopEnd.failed e, st)
      | (.ok response, st) =>
        let st := processNodes pluginRepos st response.Nodes
        if response.HasNextPage then
          pageLoopRun env pluginRepos fuel { vars with cursor := some response.EndCursor } st
        else (LoopEnd.done, st)

/-- The window loop (source lines 496-650) observed with its state: the same
steps as `windowLoop`, keeping the state reached when a budget runs out. -/
def windowLoopRun (env : Env) (pluginRepos : Registry) (endDate : Time) (pageFuel : Nat) :
    Nat → Time → RunState → LoopEnd × RunState
  | 0, startDate, st =>
    if startDate.Before endDate then (LoopEnd.outOfFuel, st) else (LoopEnd.done, st)
  | fuel + 1, startDate, st =>
    if startDate.Before endDate then
      let currentEndDate := windowEnd startDate endDate
      let vars : Variables :=
        { query := searchQuery "jenkinsci".toList startDate currentEndDate, cursor := none }
      match pageLoopRun env pluginRepos pageFuel vars st with
      | (LoopEnd.outOfFuel, st) => (LoopEnd.outOfFuel, st)
      | (LoopEnd.failed e, st) => (LoopEnd.failed e, st)
      | (LoopEnd.done, st) => windowLoopRun env pluginRepos endDate pageFuel fuel
          (currentEndDate.AddDate 0 0 1) st
    else (LoopEnd.done, st)

/-- The run of `fetchPullRequestsGraphQL` observed with its state, whether it
ends within the budgets or not. -/
def fetchRun (env : Env) (config : Config) (pluginRepos : Registry)
    (allFound : GoSlice PullRequestData) (windowFuel pageFuel : Nat) : LoopEnd × RunState :=
  windowLoopRun env pluginRepos config.EndDate pageFuel windowFuel config.StartDate
    (RunState.init allFound)

/-- What `fetchPullRequestsGraphQL` returns for an observed run. -/
def resultOfRun (obs : LoopEnd × RunState) : Option FetchResult :=
  match obs with
  | (LoopEnd.outOfFuel, _) => none
  | (LoopEnd.failed e, st) => some { result := none, err := some e, final := st }
  | (LoopEnd.done, st) => some { result := st.allPRs, err := none, final := st }

/-- What `pageLoop` and `windowLoop` return for an observed loop. -/
def loopResult (obs : LoopEnd × RunState) : Option (Option GoString × RunState) :=
  match obs with
  | (LoopEnd.outOfFuel, _) => none
  | (LoopEnd.failed e, st) => some (some e, st)
  | (LoopEnd.done, st) => some (none, st)

/-- The state of the pacing automaton before attempt `i` (counted from 1) of
a page fetch: right after the admission for the first attempt, after the
backoff sleep of the previous attempt for a later one. -/
def paceBefore (i : Nat) : Pace :=
  if i = 1 then Pace.admitted else Pace.slept (i - 1)

/-- The pacing condition on an observed loop. While the loop is going, and
when it has ended normally, the trace is accepted and no admission is open.
When it has returned an error, either the fifth call of a page fetch has
failed, or the limiter has failed: then the failed wait is the last event and
the error is the rate-limiter error of that wait. -/
def PacedEnd (obs : LoopEnd × RunState) : Prop :=
  match obs.1 with
  | LoopEnd.done => paceRun Pace.idle obs.2.trace = some Pace.idle
  | LoopEnd.outOfFuel => paceRun Pace.idle obs.2.trace = some Pace.idle
  | LoopEnd.failed e =>
    paceRun Pace.idle obs.2.trace = some (Pace.failed 5)
    ∨ paceRun Pace.idle obs.2.trace = some (Pace.slept 5)
    ∨ (paceRun Pace.idle obs.2.trace = some Pace.closed
        ∧ ∃ e2, e = rateLimiterText ++ e2
            ∧ obs.2.trace.getLast? = some (Event.wait (some e2)))

/-- The result of the run against `flakyEnv`. -/
def flakyResult : FetchResult :=
  { result := some [matchedRecord sampleRegistry sampleNode],
    err := none,
    final :=
      { waits := 1, calls := 2,
        allPRs := some [matchedRecord sampleRegistry sampleNode],
        allFoundPRs := some [foundRecord sampleRegistry sampleNode,
          foundRecord sampleRegistry sampleBotNode, foundRecord sampleRegistry sampleForeignNode],
        trace := [Event.wait none, Event.exec sampleVars (.error "timeout".toList),
          Event.sleep 2, Event.exec sampleVars (.ok samplePage)] } }

/-- The result of the run against `cancelledEnv`: the error of the limiter,
a `nil` slice, and the state left behind. -/
def cancelledResult : FetchResult :=
  { result := none,
    err := some "rate limiter error: context canceled".toList,
    final :=
      { waits := 2, calls := 1,
        allPRs := some [matchedRecord sampleRegistry sampleNode],
        allFoundPRs := some [foundRecord sampleRegistry sampleNode,
          foundRecord sampleRegistry sampleBotNode, foundRecord sampleRegistry sampleForeignNode],
        trace := [Event.wait none, Event.exec sampleVars (.ok samplePageMore),
          Event.wait (some "context canceled".toList)] } }

/-- The last limiter wait or executor call of a trace (sleeps are passed
over). -/
def lastCall : List Event → Option Event
  | [] => none
  | ev :: rest =>
    match lastCall rest with
    | some x => some x
    | none =>
      match ev with
      | Event.sleep _ => none
      | _ => some ev

/-- Whether an event is a failed limiter wait or a failed executor call. -/
def Event.failed : Event → Bool
  | Event.wait (some _) => true
  | Event.exec _ (.error _) => true
  | _ => false

/-- The result of the run against `failingEnv "timeout"`: five failed
attempts on the first page. -/
def timeoutResult : FetchResult :=
  { result := none,
    err := some "timeout".toList,
    final :=
      { waits := 1, calls := 5, allPRs := none, allFoundPRs := none,
        trace := [Event.wait none,
          Event.exec sampleVars (.error "timeout".toList), Event.sleep 2,
          Event.exec sampleVars (.error "timeout".toList), Event.sleep 4,
          Event.exec sampleVars (.error "timeout".toList), Event.sleep 6,
          Event.exec sampleVars (.error "timeout".toList), Event.sleep 8,
          Event.exec sampleVars (.error "timeout".toList)] } }

/-- Two plugin entries derive different registry keys (or the first derives
none). -/
def distinctKeys (a b : GoString × GoString) : Prop :=
  repoKey a.2 = none ∨ repoKey a.2 ≠ repoKey b.2

instance (a b : GoString × GoString) : Decidable (distinctKeys a b) := by
  unfold distinctKeys; infer_instance

/-- Two plugins hosted in the same repository, `jenkinsci/blueocean-plugin`. -/
def sharedRepoEntries : List (GoString × GoString) :=
  [("blueocean".toList, "https://github.com/jenkinsci/blueocean-plugin".toList),
   ("blueocean-web".toList, "https://github.com/jenkinsci/blueocean-plugin".toList)]

/-- A pull request in `jenkinsci/blueocean-plugin`. -/
def blueoceanNode : SearchNode :=
  { sampleNode with RepositoryName := "blueocean-plugin".toList }

/-- Two plugins hosted in repositories of their own. -/
def twoRepoEntries : List (GoString × GoString) :=
  [("git".toList, "https://github.com/jenkinsci/git-plugin".toList),
   ("ant".toList, "https://github.com/jenkinsci/ant-plugin.git".toList)]

/-- A pull request that passes the filter and carries no label. -/
def unlabelledNode : SearchNode := { sampleNode with Number := 10, Labels := [] }

/-- An environment whose executor answers with the single unlabelled pull
request. -/
def unlabelledEnv : Env :=
  { limiter := fun _ => none,
    execute := fun _ _ => .ok { HasNextPage := false, EndCursor := [], Nodes := [unlabelledNode] } }

/-- The span the specification speaks of: `span` is the part of `body` from
its first opening brace to its last closing brace, both included. -/
def isBraceSpan (body span : GoString) : Prop :=
  ∃ pre post, body = pre ++ span ++ post ∧ lbrace ∉ pre ∧ rbrace ∉ post
    ∧ span.head? = some lbrace ∧ span.getLast? = some rbrace

/-- The search strings of the executor calls of a trace, in order. -/
def execQueries : List Event → List GoString
  | [] => []
  | Event.exec v _ :: rest => v.query :: execQueries rest
  | _ :: rest => execQueries rest

/-- The search string of a window given as a pair of calendar dates. -/
def windowQuery (w : Date × Date) : GoString :=
  searchQuery "jenkinsci".toList { date := w.1, sec := 0 } { date := w.2, sec := 0 }

/-- The search strings sent when window `i` of `ws` is queried `counts[i]`
times. -/
def repeatedQueries (ws : List (Date × Date)) (counts : List Nat) : List GoString :=
  (List.zipWith (fun w k => List.replicate k (windowQuery w)) ws counts).flatten

/-! # Theorems -/

/-! ## Strings -/

namespace strings

theorem HasPrefix_iff (s p : GoString) : HasPrefix s p = true ↔ p <+: s := by
  induction s generalizing p with
  | nil =>
    cases p with
    | nil => simp [HasPrefix]
    | cons d p => simp [HasPrefix]
  | cons c s ih =>
    cases p with
    | nil => simp [HasPrefix]
    | cons d p =>
      by_cases h : c = d
      · subst h
        simp [HasPrefix, ih, List.cons_prefix_cons]
      · have h2 : ¬ d = c := fun e => h e.symm
        simp [HasPrefix, h, h2, List.cons_prefix_cons]

theorem Index_cons (c : Char) (t sep : GoString) :
    Index (c :: t) sep =
      if HasPrefix (c :: t) sep then 0 else if Index t sep < 0 then -1 else Index t sep + 1 := by
  rw [Index]

theorem Index_nonneg_iff (s sep : GoString) : 0 ≤ Index s sep ↔ sep <:+: s := by
  induction s with
  | nil =>
    by_cases h : sep = []
    · simp [Index, h]
    · simp [Index, h]
  | cons c t ih =>
    rw [List.infix_cons_iff, ← ih, ← HasPrefix_iff, Index_cons]
    by_cases hp : HasPrefix (c :: t) sep = true
    · simp [hp]
    · simp only [hp]
      by_cases hr : Index t sep < 0
      · simp [hr]
      · simp [hr]; omega

theorem Contains_iff (s sub : GoString) : Contains s sub = true ↔ sub <:+: s := by
  simp [Contains, Index_nonneg_iff]

end strings

/-! ## The node loop and what a run collects -/

theorem GoSlice.elems_append {α : Type} (s : GoSlice α) (x : α) :
    (s.append x).elems = s.elems ++ [x] := by
  cases s <;> rfl

theorem received_append (a b : List Event) : received (a ++ b) = received a ++ received b := by
  induction a with
  | nil => rfl
  | cons e a ih =>
    cases e with
    | wait w => simpa [received] using ih
    | sleep n => simpa [received] using ih
    | exec v o =>
      cases o with
      | ok r => simp [received, ih]
      | error e => simpa [received] using ih

theorem Registry.get_snd (m : Registry) (k : GoString) :
    (m.get k).2 = true ↔ m k ≠ none := by
  unfold Registry.get
  cases m k <;> simp

/-- The code's test of a node is the filter of the specification. -/
theorem processNode_spec (reg : Registry) (st : RunState) (pr : SearchNode) :
    (processNode reg st pr).allFoundPRs.elems = st.allFoundPRs.elems ++ [foundRecord reg pr]
    ∧ (processNode reg st pr).allPRs.elems =
        st.allPRs.elems ++ (if specPassesFilter reg pr then [matchedRecord reg pr] else [])
    ∧ (processNode reg st pr).trace = st.trace
    ∧ (processNode reg st pr).waits = st.waits
    ∧ (processNode reg st pr).calls = st.calls := by
  have hget := Registry.get_snd reg pr.RepositoryName
  have h1 := strings.Contains_iff pr.BodyText modernizerMark
  have h2 := strings.Contains_iff pr.BodyText recipeMark
  unfold processNode
  by_cases hp : (reg.get pr.RepositoryName).2 = true
  · have hp2 := hget.1 hp
    by_cases ha : pr.AuthorLogin = dependabotUser ∨ pr.AuthorLogin = renovateUser
    · have hs : ¬ specPassesFilter reg pr := by
        rintro ⟨_, x, y, _⟩; rcases ha with ha | ha
        · exact x ha
        · exact y ha
      rw [if_neg hs]
      simp [hp, ha, GoSlice.elems_append]
    · have ha1 : pr.AuthorLogin ≠ dependabotUser := fun e => ha (Or.inl e)
      have ha2 : pr.AuthorLogin ≠ renovateUser := fun e => ha (Or.inr e)
      by_cases hc : (strings.Contains pr.BodyText modernizerMark
          || strings.Contains pr.BodyText recipeMark) = true
      · have hc2 : modernizerMark <:+: pr.BodyText ∨ recipeMark <:+: pr.BodyText := by
          rw [Bool.or_eq_true] at hc
          rcases hc with hc | hc
          · exact Or.inl (h1.1 hc)
          · exact Or.inr (h2.1 hc)
        have hs : specPassesFilter reg pr := ⟨hp2, ha1, ha2, hc2⟩
        rw [if_pos hs]
        simp only [hp, ha, hc]
        simp [GoSlice.elems_append]
      · have hc2 : ¬ (modernizerMark <:+: pr.BodyText ∨ recipeMark <:+: pr.BodyText) := by
          intro h
          apply hc
          rw [Bool.or_eq_true]
          rcases h with h | h
          · exact Or.inl (h1.2 h)
          · exact Or.inr (h2.2 h)
        have hs : ¬ specPassesFilter reg pr := fun h => hc2 h.2.2.2
        rw [if_neg hs]
        simp only [hp, ha, hc]
        simp [GoSlice.elems_append]
  · have hs : ¬ specPassesFilter reg pr := fun h => hp (hget.2 h.1)
    rw [if_neg hs]
    simp [hp, GoSlice.elems_append]

theorem processNodes_spec (reg : Registry) (nodes : List SearchNode) (st : RunState) :
    (processNodes reg st nodes).allFoundPRs.elems
        = st.allFoundPRs.elems ++ nodes.map (foundRecord reg)
    ∧ (processNodes reg st nodes).allPRs.elems =
        st.allPRs.elems
          ++ (nodes.filter (fun pr => decide (specPassesFilter reg pr))).map (matchedRecord reg)
    ∧ (processNodes reg st nodes).trace = st.trace
    ∧ (processNodes reg st nodes).waits = st.waits
    ∧ (processNodes reg st nodes).calls = st.calls := by
  induction nodes generalizing st with
  | nil => simp [processNodes]
  | cons pr rest ih =>
    obtain ⟨a1, a2, a3, a4, a5⟩ := processNode_spec reg st pr
    obtain ⟨b1, b2, b3, b4, b5⟩ := ih (processNode reg st pr)
    have hstep : processNodes reg st (pr :: rest)
        = processNodes reg (processNode reg st pr) rest := rfl
    rw [hstep, b1, b2, b3, b4, b5, a1, a2, a3, a4, a5]
    refine ⟨by simp, ?_, rfl, rfl, rfl⟩
    by_cases hs : specPassesFilter reg pr
    · simp [hs, List.filter_cons]
    · simp [hs, List.filter_cons]

theorem retryLoop_collect (env : Env) (vars : Variables) (l : List Nat) :
    ∀ (err : Option GoString) (st : RunState),
      (retryLoop env vars l err st).2.allPRs = st.allPRs
      ∧ (retryLoop env vars l err st).2.allFoundPRs = st.allFoundPRs
      ∧ received (retryLoop env vars l err st).2.trace
          = received st.trace ++ fetchedNodes (retryLoop env vars l err st).1 := by
  induction l with
  | nil =>
    intro err st
    cases err <;> simp [retryLoop, fetchedNodes]
  | cons attempt rest ih =>
    intro err st
    rw [retryLoop]
    cases ho : env.execute st.calls vars with
    | ok response =>
      simp [fetchedNodes, received_append, received]
    | error e =>
      simp only []
      split
      · obtain ⟨c1, c2, c3⟩ := ih (some e)
          { waits := st.waits, calls := st.calls + 1, allPRs := st.allPRs,
            allFoundPRs := st.allFoundPRs,
            trace := st.trace ++ [Event.exec vars (Except.error e)]
              ++ [Event.sleep ((attempt + 1) * 5)] }
        refine ⟨c1, c2, ?_⟩
        rw [c3]
        simp [received_append, received]
      · split
        · simp [fetchedNodes, received_append, received]
        · obtain ⟨c1, c2, c3⟩ := ih (some e)
            { waits := st.waits, calls := st.calls + 1, allPRs := st.allPRs,
              allFoundPRs := st.allFoundPRs,
              trace := st.trace ++ [Event.exec vars (Except.error e)]
                ++ [Event.sleep ((attempt + 1) * 2)] }
          refine ⟨c1, c2, ?_⟩
          rw [c3]
          simp [received_append, received]

theorem pageLoop_collect (env : Env) (reg : Registry) (found0 : List PullRequestData)
    (fuel : Nat) : ∀ (vars : Variables) (st : RunState) (out : Option GoString × RunState),
      pageLoop env reg fuel vars st = some out → Collected reg found0 st →
        Collected reg found0 out.2 := by
  induction fuel with
  | zero => intro vars st out h; simp [pageLoop] at h
  | succ fuel ih =>
    intro vars st out h hc
    rw [pageLoop] at h
    cases hw : env.limiter st.waits with
    | some e =>
      simp only [hw] at h
      cases h
      simpa [Collected, received_append, received] using hc
    | none =>
      simp only [hw] at h
      obtain ⟨r1, r2, r3⟩ := retryLoop_collect env vars attempts none
        { st with waits := st.waits + 1, trace := st.trace ++ [Event.wait none] }
      generalize retryLoop env vars attempts none
        { st with waits := st.waits + 1, trace := st.trace ++ [Event.wait none] } = res at h r1 r2 r3
      obtain ⟨fetch, st1⟩ := res
      have hc1 : st1.allFoundPRs.elems = found0 ++ (received st.trace).map (foundRecord reg) := by
        simp only at r2; rw [r2]; exact hc.1
      have hc2 : st1.allPRs.elems =
          ((received st.trace).filter (fun pr => decide (specPassesFilter reg pr))).map
            (matchedRecord reg) := by
        simp only at r1; rw [r1]; exact hc.2
      have hr : received st1.trace = received st.trace ++ fetchedNodes fetch := by
        simp only at r3; rw [r3]; simp [received_append, received]
      cases fetch with
      | error e =>
        simp only at h
        cases h
        simp only [fetchedNodes, List.append_nil] at hr
        exact ⟨by rw [hc1, hr], by rw [hc2, hr]⟩
      | ok response =>
        simp only at h
        simp only [fetchedNodes] at hr
        obtain ⟨p1, p2, p3, _, _⟩ := processNodes_spec reg response.Nodes st1
        have hcol : Collected reg found0 (processNodes reg st1 response.Nodes) := by
          constructor
          · rw [p1, p3, hr, hc1]; simp
          · rw [p2, p3, hr, hc2]; simp
        by_cases hn : response.HasNextPage = true
        · simp only [hn, if_true] at h
          exact ih _ _ _ h hcol
        · simp only [hn] at h
          cases h
          exact hcol

theorem windowLoop_collect (env : Env) (reg : Registry) (found0 : List PullRequestData)
    (endDate : Time) (pageFuel fuel : Nat) :
    ∀ (startDate : Time) (st : RunState) (out : Option GoString × RunState),
      windowLoop env reg endDate pageFuel fuel startDate st = some out →
        Collected reg found0 st → Collected reg found0 out.2 := by
  induction fuel with
  | zero =>
    intro startDate st out h hc
    rw [windowLoop] at h
    split at h
    · cases h
    · cases h; exact hc
  | succ fuel ih =>
    intro startDate st out h hc
    rw [windowLoop] at h
    split at h
    · simp only at h
      split at h
      · cases h
      · next e st1 hp =>
        cases h
        exact pageLoop_collect env reg found0 pageFuel _ _ _ hp hc
      · next st1 hp =>
        exact ih _ _ _ h (pageLoop_collect env reg found0 pageFuel _ _ _ hp hc)
    · cases h; exact hc

/-! ## The sample run -/

set_option maxRecDepth 100000 in
theorem sampleRun_eq :
    fetchPullRequestsGraphQL sampleEnv sampleConfig sampleRegistry none 1 1 = some sampleResult := by
  rfl

/-- Every completed run leaves the collections as `Collected` describes. -/
theorem fetch_collected (env : Env) (config : Config) (reg : Registry)
    (found0 : GoSlice PullRequestData) (windowFuel pageFuel : Nat) (r : FetchResult)
    (h : fetchPullRequestsGraphQL env config reg found0 windowFuel pageFuel = some r) :
    Collected reg found0.elems r.final
    ∧ (r.err = none → r.result = r.final.allPRs)
    ∧ (r.err ≠ none → r.result = none) := by
  unfold fetchPullRequestsGraphQL at h
  have h0 : Collected reg found0.elems (RunState.init found0) := by
    simp [Collected, RunState.init, received, GoSlice.elems]
  split at h
  · cases h
  · next e st hw =>
    cases h
    exact ⟨windowLoop_collect env reg _ _ _ _ _ _ _ hw h0, by simp, by simp⟩
  · next st hw =>
    cases h
    exact ⟨windowLoop_collect env reg _ _ _ _ _ _ _ hw h0, by simp, by simp⟩

/-! ## C1: the filter of the match path -/

/-- C1. On a successful run of `fetchPullRequestsGraphQL`, for every registry,
the returned Matched slice is exactly the sequence of `matchedRecord`s of the
received search results that pass the filter of the specification (repository
name a key of the registry, author neither `dependabot` nor `renovate`, body
containing `odernizer` or `recipe`), in the order received: a result
contributes a record if and only if it passes. The node loop appends a record
exactly when the filter holds, and no record of Matched has a bot author or a
body without both substrings. -/
theorem matched_exactly_filtered (env : Env) (config : Config) (reg : Registry)
    (found0 : GoSlice PullRequestData) (windowFuel pageFuel : Nat) (r : FetchResult)
    (h : fetchPullRequestsGraphQL env config reg found0 windowFuel pageFuel = some r)
    (hok : r.err = none) :
    r.result.elems =
        ((received r.final.trace).filter (fun pr => decide (specPassesFilter reg pr))).map
          (matchedRecord reg)
    ∧ (∀ (st : RunState) (pr : SearchNode),
        (processNode reg st pr).allPRs.elems =
          st.allPRs.elems ++ (if specPassesFilter reg pr then [matchedRecord reg pr] else []))
    ∧ (∀ rec ∈ r.result.elems,
        rec.User ≠ "dependabot".toList ∧ rec.User ≠ "renovate".toList
        ∧ ("odernizer".toList <:+: rec.Description ∨ "recipe".toList <:+: rec.Description)) := by
  obtain ⟨hc, hres, _⟩ := fetch_collected env config reg found0 windowFuel pageFuel r h
  have heq := hc.2
  rw [← hres hok] at heq
  refine ⟨heq, fun st pr => (processNode_spec reg st pr).2.1, ?_⟩
  intro rec hrec
  rw [heq, List.mem_map] at hrec
  obtain ⟨pr, hpr, rfl⟩ := hrec
  rw [List.mem_filter] at hpr
  have hs : specPassesFilter reg pr := of_decide_eq_true hpr.2
  exact ⟨hs.2.1, hs.2.2.1, hs.2.2.2⟩

set_option maxRecDepth 100000 in
/-- C1, witness: the sample run succeeds, and of its three results (one
passing, one by a bot, one outside the registry) only the first is matched. -/
theorem matched_exactly_filtered_witness :
    fetchPullRequestsGraphQL sampleEnv sampleConfig sampleRegistry none 1 1 = some sampleResult
    ∧ sampleResult.err = none
    ∧ received sampleResult.final.trace = [sampleNode, sampleBotNode, sampleForeignNode]
    ∧ sampleResult.result.elems = [matchedRecord sampleRegistry sampleNode] :=
  ⟨sampleRun_eq, rfl, rfl,
    (matched_exactly_filtered sampleEnv sampleConfig sampleRegistry none 1 1 sampleResult
      sampleRun_eq rfl).1.trans (by decide)⟩

/-! ## C2: every result is recorded in AllFound -/

/-- C2. For every completed run of `fetchPullRequestsGraphQL` that starts from
an empty `allFoundPRs` (in particular every successful one), `allFoundPRs`
ends up holding exactly one record per search result received, in the order
received, whatever the registry, the author and the body; a result whose
repository is not a key of the registry has its record in `allFoundPRs`, and
every record of the returned Matched slice stems from a result whose
repository is a key of the registry. -/
theorem allFound_holds_every_result (env : Env) (config : Config) (reg : Registry)
    (windowFuel pageFuel : Nat) (r : FetchResult)
    (h : fetchPullRequestsGraphQL env config reg none windowFuel pageFuel = some r) :
    r.final.allFoundPRs.elems = (received r.final.trace).map (foundRecord reg)
    ∧ (∀ pr ∈ received r.final.trace, reg pr.RepositoryName = none →
        foundRecord reg pr ∈ r.final.allFoundPRs.elems ∧ ¬ specPassesFilter reg pr)
    ∧ (∀ rec ∈ r.result.elems, ∃ pr ∈ received r.final.trace,
        reg pr.RepositoryName ≠ none ∧ rec = matchedRecord reg pr) := by
  obtain ⟨hc, hres, hres2⟩ := fetch_collected env config reg none windowFuel pageFuel r h
  have hf : r.final.allFoundPRs.elems = (received r.final.trace).map (foundRecord reg) := by
    simpa [GoSlice.elems] using hc.1
  refine ⟨hf, ?_, ?_⟩
  · intro pr hpr hnone
    refine ⟨?_, fun hs => hs.1 hnone⟩
    rw [hf]
    exact List.mem_map_of_mem _ hpr
  · intro rec hrec
    by_cases hok : r.err = none
    · rw [hres hok, hc.2, List.mem_map] at hrec
      obtain ⟨pr, hpr, rfl⟩ := hrec
      rw [List.mem_filter] at hpr
      have hs : specPassesFilter reg pr := of_decide_eq_true hpr.2
      exact ⟨pr, hpr.1, hs.1, rfl⟩
    · rw [hres2 hok] at hrec
      simp [GoSlice.elems] at hrec

set_option maxRecDepth 100000 in
/-- C2, witness: the sample run records all three results, the one outside
the registry included. -/
theorem allFound_holds_every_result_witness :
    fetchPullRequestsGraphQL sampleEnv sampleConfig sampleRegistry none 1 1 = some sampleResult
    ∧ sampleResult.final.allFoundPRs.elems =
        [foundRecord sampleRegistry sampleNode, foundRecord sampleRegistry sampleBotNode,
          foundRecord sampleRegistry sampleForeignNode]
    ∧ sampleRegistry sampleForeignNode.RepositoryName = none :=
  ⟨sampleRun_eq,
    (allFound_holds_every_result sampleEnv sampleConfig sampleRegistry 1 1 sampleResult
      sampleRun_eq).1.trans rfl,
    by decide⟩

/-! ## Calendar arithmetic -/

theorem daysIn_pos (y : Int) (m : Nat) : 28 ≤ daysIn y m ∧ daysIn y m ≤ 31 := by
  unfold daysIn
  split
  · split <;> omega
  · split <;> omega

theorem iterate_next_within (y : Int) (m : Nat) (k : Nat) (hk : 1 + k ≤ daysIn y m) :
    Nat.iterate Date.next k { year := y, month := m, day := 1 }
      = { year := y, month := m, day := 1 + k } := by
  induction k with
  | zero => rfl
  | succ k ih =>
    rw [Function.iterate_succ_apply', ih (by omega)]
    have : 1 + k < daysIn y m := by omega
    simp [Date.next, this]
    omega

theorem normDate_first (y : Int) (m : Nat) (hm1 : 1 ≤ m) (hm2 : m ≤ 12) :
    ({ year := y + 0 + (((m : Int) + 0) - 1) / 12,
       month := ((((m : Int) + 0) - 1) % 12).toNat + 1, day := 1 } : Date)
      = { year := y, month := m, day := 1 } := by
  have h1 : (((m : Int) + 0) - 1) / 12 = 0 := by omega
  have h2 : ((((m : Int) + 0) - 1) % 12).toNat + 1 = m := by omega
  rw [h1, h2]; simp

theorem AddDate_one_day (c : Date) (hc : c.valid) (sec : Nat) :
    ({ date := c, sec := sec } : Time).AddDate 0 0 1 = { date := c.next, sec := sec } := by
  obtain ⟨y, m, d⟩ := c
  obtain ⟨hm1, hm2, hd1, hd2⟩ := hc
  simp only at hm1 hm2 hd1 hd2
  unfold Time.AddDate normDate
  simp only [normDate_first y m hm1 hm2]
  have h1 : (1 : Int) ≤ (d : Int) + 1 := by omega
  have h2 : ((d : Int) + 1 - 1).toNat = (d - 1) + 1 := by omega
  simp only [h1, if_true, h2]
  rw [Function.iterate_succ_apply', iterate_next_within y m (d - 1) (by omega)]
  have h3 : 1 + (d - 1) = d := by omega
  rw [h3]

theorem AddDate_month_end (c : Date) (hc : c.valid) (sec : Nat) :
    ({ date := c, sec := sec } : Time).AddDate 0 1
        (-((({ date := c, sec := sec } : Time).Day : Nat) : Int))
      = { date := lastDayOfMonth c, sec := sec } := by
  obtain ⟨y, m, d⟩ := c
  obtain ⟨hm1, hm2, hd1, hd2⟩ := hc
  simp only at hm1 hm2 hd1 hd2
  unfold Time.AddDate normDate Time.Day lastDayOfMonth
  simp only [add_neg_cancel]
  have h0 : ¬ ((1 : Int) ≤ 0) := by omega
  simp only [h0, if_false]
  have h1 : ((1 : Int) - 0).toNat = 1 := by omega
  rw [h1]
  simp only [Function.iterate_one, Date.prev]
  by_cases h12 : m = 12
  · subst h12
    simp [daysIn]
  · have h2 : ((m : Int) + 1 - 1) / 12 = 0 := by omega
    have h3 : (((m : Int) + 1 - 1) % 12).toNat + 1 = m + 1 := by omega
    rw [h2, h3]
    have h4 : 1 < m + 1 := by omega
    simp [h4]

/-! ## C3: the month windows -/

theorem monthWindows_done (fuel : Nat) (s e : Time) (h : s.Before e = false) :
    monthWindows fuel s e = some [] := by
  cases fuel <;> simp [monthWindows, h]

theorem next_not_before (e : Date) (he : e.valid) (sec sec2 : Nat) :
    ({ date := e.next, sec := sec } : Time).Before { date := e, sec := sec2 } = false := by
  obtain ⟨y, m, d⟩ := e
  obtain ⟨hm1, hm2, hd1, hd2⟩ := he
  simp only at hm1 hm2 hd1 hd2
  unfold Time.Before Date.lt Date.next
  by_cases h1 : d < daysIn y m
  · simp [h1]
  · by_cases h2 : m < 12
    · simp [h1, h2]
    · simp [h1, h2]

theorem lastDayOfMonth_next (c : Date) (hc : c.valid) :
    (lastDayOfMonth c).next.valid
    ∧ monthIndex (lastDayOfMonth c).next = monthIndex c + 1
    ∧ (lastDayOfMonth c).next.day = 1 := by
  obtain ⟨y, m, d⟩ := c
  obtain ⟨hm1, hm2, hd1, hd2⟩ := hc
  simp only at hm1 hm2 hd1 hd2
  unfold lastDayOfMonth Date.next Date.valid monthIndex
  simp only [lt_irrefl, if_false]
  by_cases h2 : m < 12
  · have := daysIn_pos y (m + 1)
    simp only [h2, if_true]
    refine ⟨⟨by omega, by omega, by omega, by omega⟩, by push_cast; omega, by simp⟩
  · have := daysIn_pos (y + 1) 1
    have hm : m = 12 := by omega
    subst hm
    simp only [h2, if_false]
    refine ⟨⟨by omega, by omega, by omega, by omega⟩, by push_cast; omega, by simp⟩

theorem monthWindows_same_month (c e : Date) (hc : c.valid) (he : e.valid)
    (hy : c.year = e.year) (hm : c.month = e.month) (hd : c.day ≤ e.day) (fuel : Nat) :
    monthWindows (fuel + 1) { date := c, sec := 0 } { date := e, sec := 86399 }
        = some [(c, e)]
    ∧ specWindows 1 c e = [(c, e)] := by
  have hbefore : ({ date := c, sec := 0 } : Time).Before { date := e, sec := 86399 } = true := by
    obtain ⟨y, m, d⟩ := c
    obtain ⟨y2, m2, d2⟩ := e
    simp only at hy hm hd
    subst hy hm
    unfold Time.Before Date.lt
    by_cases h : d < d2
    · simp [h]
    · have : d = d2 := by omega
      simp [this]
  have hlt : (lastDayOfMonth c).lt e = false := by
    obtain ⟨y, m, d⟩ := c
    obtain ⟨y2, m2, d2⟩ := e
    obtain ⟨_, _, _, hd2⟩ := he
    simp only at hy hm hd hd2
    subst hy hm
    unfold Date.lt lastDayOfMonth
    simp
    omega
  constructor
  · rw [monthWindows]
    simp only [hbefore, if_true]
    unfold windowEnd
    rw [AddDate_month_end c hc 0]
    by_cases hlast : e.lt (lastDayOfMonth c) = true
    · have hafter : ({ date := lastDayOfMonth c, sec := 0 } : Time).After
          { date := e, sec := 86399 } = true := by
        unfold Time.After Time.Before
        simp [hlast]
      simp only [hafter, if_true]
      rw [AddDate_one_day e he, monthWindows_done _ _ _ (next_not_before e he _ _)]
    · have heq : lastDayOfMonth c = e := by
        obtain ⟨y, m, d⟩ := c
        obtain ⟨y2, m2, d2⟩ := e
        obtain ⟨_, _, _, hd2⟩ := he
        simp only at hy hm hd hd2
        subst hy hm
        unfold Date.lt lastDayOfMonth at hlast
        simp at hlast
        unfold lastDayOfMonth
        simp
        omega
      have hafter : ({ date := lastDayOfMonth c, sec := 0 } : Time).After
          { date := e, sec := 86399 } = false := by
        unfold Time.After Time.Before
        rw [heq]
        obtain ⟨y2, m2, d2⟩ := e
        simp [Date.lt]
      simp only [hafter, Bool.false_eq_true, if_false]
      rw [heq, AddDate_one_day e he, monthWindows_done _ _ _ (next_not_before e he _ _)]
  · simp [specWindows, hlt]

theorem monthWindows_earlier_month (c e : Date) (hc : c.valid) (he : e.valid)
    (h : monthIndex c < monthIndex e) (fuel : Nat) :
    monthWindows (fuel + 1) { date := c, sec := 0 } { date := e, sec := 86399 }
        = (monthWindows fuel { date := (lastDayOfMonth c).next, sec := 0 }
            { date := e, sec := 86399 }).map (fun ws => (c, lastDayOfMonth c) :: ws)
    ∧ (∀ n, specWindows (n + 1) c e
        = (c, lastDayOfMonth c) :: specWindows n (lastDayOfMonth c).next e)
    ∧ c.le (lastDayOfMonth c) = true := by
  have hvalid : (lastDayOfMonth c).valid := by
    obtain ⟨y, m, d⟩ := c
    obtain ⟨hm1, hm2, hd1, hd2⟩ := hc
    exact ⟨hm1, hm2, by simp only [lastDayOfMonth] at *; omega, le_refl _⟩
  have hlt : (lastDayOfMonth c).lt e = true := by
    obtain ⟨y, m, d⟩ := c
    obtain ⟨y2, m2, d2⟩ := e
    obtain ⟨hm1, hm2, _, _⟩ := hc
    obtain ⟨hn1, hn2, _, _⟩ := he
    simp only [monthIndex] at h hm1 hm2 hn1 hn2
    unfold Date.lt lastDayOfMonth
    simp only [Bool.or_eq_true, Bool.and_eq_true, decide_eq_true_eq]
    by_cases hy : y < y2
    · exact Or.inl hy
    · right
      refine ⟨by omega, Or.inl (by omega)⟩
  have hclt : c.lt e = true := by
    obtain ⟨y, m, d⟩ := c
    obtain ⟨y2, m2, d2⟩ := e
    obtain ⟨hm1, hm2, _, _⟩ := hc
    obtain ⟨hn1, hn2, _, _⟩ := he
    simp only [monthIndex] at h hm1 hm2 hn1 hn2
    unfold Date.lt
    simp only [Bool.or_eq_true, Bool.and_eq_true, decide_eq_true_eq]
    by_cases hy : y < y2
    · exact Or.inl hy
    · right
      refine ⟨by omega, Or.inl (by omega)⟩
  have hnotlt : e.lt (lastDayOfMonth c) = false := by
    obtain ⟨y, m, d⟩ := c
    obtain ⟨y2, m2, d2⟩ := e
    obtain ⟨hm1, hm2, _, _⟩ := hc
    obtain ⟨hn1, hn2, _, _⟩ := he
    simp only [monthIndex] at h hm1 hm2 hn1 hn2
    unfold Date.lt lastDayOfMonth
    simp
    exact ⟨by omega, fun h1 => ⟨by omega, fun h2 => by omega⟩⟩
  refine ⟨?_, ?_, ?_⟩
  · rw [monthWindows]
    have hbefore : ({ date := c, sec := 0 } : Time).Before { date := e, sec := 86399 } = true := by
      unfold Time.Before
      simp [hclt]
    simp only [hbefore, if_true]
    unfold windowEnd
    rw [AddDate_month_end c hc 0]
    have hafter : ({ date := lastDayOfMonth c, sec := 0 } : Time).After
        { date := e, sec := 86399 } = false := by
      unfold Time.After Time.Before
      simp [hnotlt]
    simp only [hafter, Bool.false_eq_true, if_false]
    rw [AddDate_one_day _ hvalid]
    cases monthWindows fuel { date := (lastDayOfMonth c).next, sec := 0 }
      { date := e, sec := 86399 } <;> simp
  · intro n
    simp [specWindows, hlt]
  · obtain ⟨y, m, d⟩ := c
    obtain ⟨_, _, _, hd2⟩ := hc
    simp only at hd2
    unfold Date.le Date.lt lastDayOfMonth
    by_cases hd : d < daysIn y m
    · simp [hd]
    · have : d = daysIn y m := by omega
      simp [← this]

theorem specWindows_length (n : Nat) : ∀ (c e : Date), (specWindows n c e).length = n := by
  induction n with
  | zero => intro c e; rfl
  | succ n ih => intro c e; simp [specWindows, ih]

theorem specWindows_end (n : Nat) : ∀ (c e : Date), ∀ w ∈ specWindows n c e,
    w.2 = if (lastDayOfMonth w.1).lt e then lastDayOfMonth w.1 else e := by
  induction n with
  | zero => intro c e w hw; simp [specWindows] at hw
  | succ n ih =>
    intro c e w hw
    rw [specWindows, List.mem_cons] at hw
    rcases hw with hw | hw
    · subst hw; rfl
    · exact ih _ _ w hw

theorem specWindows_chain (n : Nat) : ∀ (c e : Date),
    List.Chain' (fun a b : Date × Date => b.1 = a.2.next) (specWindows n c e) := by
  induction n with
  | zero => intro c e; simp [specWindows]
  | succ n ih =>
    intro c e
    rw [specWindows, List.chain'_cons']
    refine ⟨?_, ih _ _⟩
    intro y hy
    cases n with
    | zero => simp [specWindows] at hy
    | succ n =>
      simp only [specWindows, List.head?_cons, Option.mem_def, Option.some.injEq] at hy
      subst hy
      rfl

theorem mkConfig_dates (s e : Date) (out found : GoString) :
    (mkConfig s e out found).StartDate = { date := s, sec := 0 }
    ∧ (mkConfig s e out found).EndDate = { date := e, sec := 86399 } := by
  simp [mkConfig, parsedDate, Time.Add]

theorem windows_main (e : Date) (he : e.valid) (k : Nat) :
    ∀ c : Date, c.valid → monthIndex e = monthIndex c + k → (k = 0 → c.day ≤ e.day) →
      (∀ fuel, k + 1 ≤ fuel →
        monthWindows fuel { date := c, sec := 0 } { date := e, sec := 86399 }
          = some (specWindows (k + 1) c e))
      ∧ ((specWindows (k + 1) c e).getLast?).map Prod.snd = some e
      ∧ (∀ w ∈ specWindows (k + 1) c e, w.1.le w.2 = true) := by
  induction k with
  | zero =>
    intro c hc hidx hday
    have hym : c.year = e.year ∧ c.month = e.month := by
      obtain ⟨hm1, hm2, _, _⟩ := hc
      obtain ⟨hn1, hn2, _, _⟩ := he
      simp only [monthIndex] at hidx
      constructor <;> omega
    have hd := hday rfl
    have hspec := (monthWindows_same_month c e hc he hym.1 hym.2 hd 0).2
    refine ⟨?_, ?_, ?_⟩
    · intro fuel hfuel
      obtain ⟨f, rfl⟩ : ∃ f, fuel = f + 1 := ⟨fuel - 1, by omega⟩
      rw [(monthWindows_same_month c e hc he hym.1 hym.2 hd f).1, hspec]
    · rw [hspec]; rfl
    · intro w hw
      rw [hspec, List.mem_singleton] at hw
      subst hw
      obtain ⟨y, m, d⟩ := c
      obtain ⟨y2, m2, d2⟩ := e
      obtain ⟨hy, hm⟩ := hym
      simp only at hy hm hd
      subst hy hm
      unfold Date.le Date.lt
      by_cases h : d < d2
      · simp [h]
      · have : d = d2 := by omega
        simp [this]
  | succ k ih =>
    intro c hc hidx _
    have hlt : monthIndex c < monthIndex e := by omega
    obtain ⟨_, hspec0, hcle⟩ := monthWindows_earlier_month c e hc he hlt 0
    have hspec := hspec0 (k + 1)
    obtain ⟨hv, hi, hday1⟩ := lastDayOfMonth_next c hc
    have hdaye : k = 0 → (lastDayOfMonth c).next.day ≤ e.day := by
      intro _; rw [hday1]; exact he.2.2.1
    obtain ⟨i1, i2, i3⟩ := ih (lastDayOfMonth c).next hv (by omega) hdaye
    refine ⟨?_, ?_, ?_⟩
    · intro fuel hfuel
      obtain ⟨f, rfl⟩ : ∃ f, fuel = f + 1 := ⟨fuel - 1, by omega⟩
      rw [(monthWindows_earlier_month c e hc he hlt f).1, i1 f (by omega), hspec]
      rfl
    · rw [hspec]
      have hne : specWindows (k + 1) (lastDayOfMonth c).next e ≠ [] := by
        intro h0
        have := specWindows_length (k + 1) (lastDayOfMonth c).next e
        rw [h0] at this
        simp at this
      obtain ⟨x, xs, hx⟩ := List.exists_cons_of_ne_nil hne
      rw [hx] at i2 ⊢
      rw [List.getLast?_cons_cons]
      exact i2
    · intro w hw
      rw [hspec, List.mem_cons] at hw
      rcases hw with hw | hw
      · subst hw; exact hcle
      · exact i3 w hw

set_option maxRecDepth 100000 in
/-- C3. For calendar dates `s ≤ e`, with the end moved to 23:59:59 of its day
as `main` does, the month-window loop terminates within `N` iterations, where
`N` is the number of calendar months the range touches, and visits exactly `N`
windows (as pairs of calendar dates): the first starts at `s`, the last ends at
`e`, every window ends at the last day of its starting month or at `e`,
whichever is earlier, no window is empty, and every later window starts the
day after the previous one ended. When `s` and `e` lie in the same month the
only window is `(s, e)`; from 2024-01-15 to 2024-03-10 the windows are
01-15..01-31, 02-01..02-29 and 03-01..03-10. -/
theorem month_windows_partition (s e : Date) (hs : s.valid) (he : e.valid)
    (hle : s.le e = true) (out found : GoString) (fuel : Nat)
    (hfuel : monthsTouched s e ≤ fuel) :
    monthWindows fuel (mkConfig s e out found).StartDate (mkConfig s e out found).EndDate
        = some (specWindows (monthsTouched s e) s e)
    ∧ (specWindows (monthsTouched s e) s e).length = monthsTouched s e
    ∧ (specWindows (monthsTouched s e) s e).head?.map Prod.fst = some s
    ∧ (specWindows (monthsTouched s e) s e).getLast?.map Prod.snd = some e
    ∧ (∀ w ∈ specWindows (monthsTouched s e) s e,
        w.2 = if (lastDayOfMonth w.1).lt e then lastDayOfMonth w.1 else e)
    ∧ (∀ w ∈ specWindows (monthsTouched s e) s e, w.1.le w.2 = true)
    ∧ List.Chain' (fun a b : Date × Date => b.1 = a.2.next)
        (specWindows (monthsTouched s e) s e)
    ∧ (s.year = e.year ∧ s.month = e.month →
        monthsTouched s e = 1 ∧ specWindows (monthsTouched s e) s e = [(s, e)])
    ∧ monthWindows 3 (mkConfig ⟨2024, 1, 15⟩ ⟨2024, 3, 10⟩ out found).StartDate
          (mkConfig ⟨2024, 1, 15⟩ ⟨2024, 3, 10⟩ out found).EndDate
        = some [(⟨2024, 1, 15⟩, ⟨2024, 1, 31⟩), (⟨2024, 2, 1⟩, ⟨2024, 2, 29⟩),
            (⟨2024, 3, 1⟩, ⟨2024, 3, 10⟩)] := by
  have hord : monthIndex s ≤ monthIndex e ∧ (monthIndex s = monthIndex e → s.day ≤ e.day) := by
    obtain ⟨y, m, d⟩ := s
    obtain ⟨y2, m2, d2⟩ := e
    obtain ⟨hm1, hm2, _, _⟩ := hs
    obtain ⟨hn1, hn2, _, _⟩ := he
    simp only [Date.le, Date.lt, Bool.or_eq_true, Bool.and_eq_true, decide_eq_true_eq,
      Date.mk.injEq] at hle
    simp only [monthIndex] at *
    constructor
    · rcases hle with (h | ⟨h1, h2 | ⟨h3, h4⟩⟩) | ⟨h1, h2, h3⟩ <;> omega
    · intro heq
      rcases hle with (h | ⟨h1, h2 | ⟨h3, h4⟩⟩) | ⟨h1, h2, h3⟩ <;> omega
  obtain ⟨k, hk⟩ : ∃ k : Nat, monthIndex e = monthIndex s + k :=
    ⟨(monthIndex e - monthIndex s).toNat, by omega⟩
  have hN : monthsTouched s e = k + 1 := by
    unfold monthsTouched; omega
  have hday : k = 0 → s.day ≤ e.day := by
    intro h0; apply hord.2; omega
  obtain ⟨w1, w2, w3⟩ := windows_main e he k s hs hk hday
  obtain ⟨c1, c2⟩ := mkConfig_dates s e out found
  rw [hN, c1, c2]
  refine ⟨w1 fuel (by omega), specWindows_length _ _ _, rfl, w2, specWindows_end _ _ _, w3,
    specWindows_chain _ _ _, ?_, ?_⟩
  · intro hym
    have hk0 : k = 0 := by
      simp only [monthIndex] at hk
      have := hym.1; have := hym.2
      omega
    subst hk0
    exact ⟨rfl, (monthWindows_same_month s e hs he hym.1 hym.2 (hday rfl) 0).2⟩
  · obtain ⟨d1, d2⟩ := mkConfig_dates ⟨2024, 1, 15⟩ ⟨2024, 3, 10⟩ out found
    rw [d1, d2]
    decide

set_option maxRecDepth 100000 in
/-- C3, witness: the range 2023-11-20 .. 2024-02-29 crosses a year end and
touches four months. -/
theorem month_windows_partition_witness :
    (⟨2023, 11, 20⟩ : Date).valid ∧ (⟨2024, 2, 29⟩ : Date).valid
    ∧ (⟨2023, 11, 20⟩ : Date).le ⟨2024, 2, 29⟩ = true
    ∧ monthsTouched ⟨2023, 11, 20⟩ ⟨2024, 2, 29⟩ ≤ 4
    ∧ monthWindows 4 (mkConfig ⟨2023, 11, 20⟩ ⟨2024, 2, 29⟩ [] []).StartDate
          (mkConfig ⟨2023, 11, 20⟩ ⟨2024, 2, 29⟩ [] []).EndDate
        = some [(⟨2023, 11, 20⟩, ⟨2023, 11, 30⟩), (⟨2023, 12, 1⟩, ⟨2023, 12, 31⟩),
            (⟨2024, 1, 1⟩, ⟨2024, 1, 31⟩), (⟨2024, 2, 1⟩, ⟨2024, 2, 29⟩)] :=
  ⟨by decide, by decide, by decide, by decide,
    (month_windows_partition ⟨2023, 11, 20⟩ ⟨2024, 2, 29⟩ (by decide) (by decide) (by decide)
      [] [] 4 (by decide)).1.trans (by decide)⟩

/-! ## C4: the registry key of an SCM URL -/

namespace strings

theorem splitGo_skip (sep : GoString) (t : GoString) :
    ∀ (k : Nat) (cur : GoString), splitGo sep t k cur = splitGo sep (t.drop k) 0 cur := by
  induction t with
  | nil => intro k cur; cases k <;> simp [splitGo]
  | cons c t ih =>
    intro k cur
    cases k with
    | zero => rfl
    | succ k => rw [splitGo, ih k cur, List.drop_succ_cons]

theorem Index_neg_one_or_nonneg (s sep : GoString) : Index s sep = -1 ∨ 0 ≤ Index s sep := by
  induction s with
  | nil => unfold Index; split <;> simp
  | cons c t ih =>
    rw [Index_cons]
    split
    · simp
    · split
      · simp
      · right; omega

theorem splitGo_of_index (sep : GoString) (hsep : sep ≠ []) (s : GoString) :
    ∀ (cur : GoString) (n : Nat), Index s sep = (n : Int) →
      splitGo sep s 0 cur
        = (cur.reverse ++ s.take n) :: splitGo sep (s.drop (n + sep.length)) 0 [] := by
  induction s with
  | nil =>
    intro cur n h
    simp [Index, hsep] at h
  | cons c t ih =>
    intro cur n h
    rw [Index_cons] at h
    have hlen : 1 ≤ sep.length := by
      cases sep with
      | nil => exact absurd rfl hsep
      | cons a l => simp
    by_cases hp : HasPrefix (c :: t) sep = true
    · simp only [hp, if_true] at h
      have hn : n = 0 := by omega
      subst hn
      rw [splitGo]
      simp only [hp, if_true]
      rw [splitGo_skip]
      have : (c :: t).drop (0 + sep.length) = t.drop (sep.length - 1) := by
        obtain ⟨m, hm⟩ : ∃ m, sep.length = m + 1 := ⟨sep.length - 1, by omega⟩
        rw [hm]; simp
      rw [this]; simp
    · simp only [hp] at h
      by_cases hr : Index t sep < 0
      · simp [hr] at h
      · simp only [hr, if_false, Bool.false_eq_true] at h
        obtain ⟨m, rfl⟩ : ∃ m, n = m + 1 := ⟨n - 1, by omega⟩
        have hm : Index t sep = (m : Int) := by push_cast at h; omega
        rw [splitGo]
        simp only [hp, Bool.false_eq_true, if_false]
        rw [ih (c :: cur) m hm]
        simp [Nat.add_right_comm]

theorem splitGo_no_index (sep : GoString) (s : GoString) :
    ∀ (cur : GoString), Index s sep < 0 → splitGo sep s 0 cur = [cur.reverse ++ s] := by
  induction s with
  | nil => intro cur _; simp [splitGo]
  | cons c t ih =>
    intro cur h
    rw [Index_cons] at h
    by_cases hp : HasPrefix (c :: t) sep = true
    · simp [hp] at h
    · simp only [hp, Bool.false_eq_true, if_false] at h
      by_cases hr : Index t sep < 0
      · rw [splitGo]
        simp only [hp, Bool.false_eq_true, if_false]
        rw [ih (c :: cur) hr]
        simp
      · simp only [hr, if_false] at h
        omega

theorem HasSuffix_append (s suf : GoString) : HasSuffix (s ++ suf) suf = true := by
  unfold HasSuffix
  rw [HasPrefix_iff, List.reverse_append]
  exact List.prefix_append _ _

theorem TrimSuffix_append (s suf : GoString) : TrimSuffix (s ++ suf) suf = s := by
  unfold TrimSuffix
  rw [HasSuffix_append]
  simp

theorem TrimSuffix_of_not (s suf : GoString) (h : HasSuffix s suf = false) :
    TrimSuffix s suf = s := by
  unfold TrimSuffix
  simp [h]

end strings

theorem Split_once (pre sep rest : GoString) (hsep : sep ≠ [])
    (hfirst : strings.Index (pre ++ sep ++ rest) sep = pre.length)
    (honce : strings.Contains rest sep = false) :
    strings.Split (pre ++ sep ++ rest) sep = [pre, rest] := by
  unfold strings.Split
  simp only [hsep, if_false]
  rw [strings.splitGo_of_index sep hsep _ [] pre.length hfirst]
  have h1 : (pre ++ sep ++ rest).take pre.length = pre := by
    rw [List.append_assoc]; exact List.take_left' rfl
  have h2 : (pre ++ sep ++ rest).drop (pre.length + sep.length) = rest := by
    exact List.drop_left' (by simp)
  have h3 : strings.Index rest sep < 0 := by
    unfold strings.Contains at honce
    simpa using honce
  rw [h1, h2, strings.splitGo_no_index sep rest [] h3]
  simp

set_option maxRecDepth 100000 in
/-- The three endings the code handles. For an entry whose `scm` is
`pre ++ "github.com/jenkinsci/" ++ name ++ suf` with `suf` empty, `.git` or
`/`, where the marker occurs in `scm` only once (right after `pre`) and `name`
itself ends neither in `.git` nor in `/`, the key derived is exactly `name`,
and the entry is stored in the registry under that key. -/
theorem repoKey_three_endings (pre name suf pluginName : GoString) (reg : Registry)
    (hsuf : suf = [] ∨ suf = ".git".toList ∨ suf = "/".toList)
    (hfirst : strings.Index (pre ++ scmMarker ++ (name ++ suf)) scmMarker = pre.length)
    (honce : strings.Contains (name ++ suf) scmMarker = false)
    (hgit : strings.HasSuffix name ".git".toList = false)
    (hslash : strings.HasSuffix name "/".toList = false) :
    repoKey (pre ++ scmMarker ++ (name ++ suf)) = some name
    ∧ registerPlugin reg (pluginName, pre ++ scmMarker ++ (name ++ suf)) name
        = some { Name := pluginName, SCM := pre ++ scmMarker ++ (name ++ suf) } := by
  have hmarker : scmMarker ≠ [] := by decide
  have hne : pre ++ scmMarker ++ (name ++ suf) ≠ [] := by
    intro h
    have := congrArg List.length h
    have hl : scmMarker.length = 21 := by decide
    simp [hl] at this
  have hcontains : strings.Contains (pre ++ scmMarker ++ (name ++ suf)) scmMarker = true := by
    unfold strings.Contains
    rw [hfirst]
    simp
  have hsplit := Split_once pre scmMarker (name ++ suf) hmarker hfirst honce
  have htrim : strings.TrimSuffix (strings.TrimSuffix (name ++ suf) ".git".toList) "/".toList
      = name := by
    rcases hsuf with h | h | h
    · subst h
      rw [List.append_nil, strings.TrimSuffix_of_not _ _ hgit, strings.TrimSuffix_of_not _ _ hslash]
    · subst h
      rw [strings.TrimSuffix_append, strings.TrimSuffix_of_not _ _ hslash]
    · subst h
      have hns : strings.HasSuffix (name ++ "/".toList) ".git".toList = false := by
        unfold strings.HasSuffix
        rw [List.reverse_append]
        rfl
      rw [strings.TrimSuffix_of_not _ _ hns, strings.TrimSuffix_append]
  have hkey : repoKey (pre ++ scmMarker ++ (name ++ suf)) = some name := by
    unfold repoKey
    simp only [hne, ne_eq, not_false_eq_true, if_true, hcontains, hsplit]
    simpa using htrim
  refine ⟨hkey, ?_⟩
  unfold registerPlugin
  simp only [hkey]
  simp [Registry.set]

set_option maxRecDepth 100000 in
/-- The URL `https://github.com/jenkinsci/git-plugin.git` is stored under
`git-plugin`. -/
theorem repoKey_three_endings_example :
    repoKey ("https://".toList ++ scmMarker ++ ("git-plugin".toList ++ ".git".toList))
      = some "git-plugin".toList
    ∧ registerPlugin Registry.empty
        ("git".toList, "https://".toList ++ scmMarker ++ ("git-plugin".toList ++ ".git".toList))
        "git-plugin".toList
      = some { Name := "git".toList,
               SCM := "https://".toList ++ scmMarker ++ ("git-plugin".toList ++ ".git".toList) } :=
  repoKey_three_endings "https://".toList "git-plugin".toList ".git".toList "git".toList
    Registry.empty (Or.inr (Or.inl rfl)) (by decide) (by decide) (by decide) (by decide)

set_option maxRecDepth 100000 in
/-- C4, the failing input evaluated. For the ending `<name>.git/` the code
removes only the slash, because it trims `.git` before `/`: the entry with scm
`https://github.com/jenkinsci/git-plugin.git/` is stored under the key
`git-plugin.git`, not under `git-plugin`, and nothing is stored under
`git-plugin`. -/
theorem repoKey_git_slash_keeps_git :
    repoKey ("https://".toList ++ scmMarker ++ ("git-plugin".toList ++ ".git".toList ++ "/".toList))
      = some "git-plugin.git".toList
    ∧ repoKey ("https://".toList ++ scmMarker
          ++ ("git-plugin".toList ++ ".git".toList ++ "/".toList))
      ≠ some "git-plugin".toList
    ∧ buildRegistry [("git".toList, "https://github.com/jenkinsci/git-plugin.git/".toList)]
        "git-plugin".toList = none := by
  refine ⟨by decide, by decide, by decide⟩

set_option maxRecDepth 100000 in
/-- When the marker occurs twice in the URL, the key is the text between its
first two occurrences: for `https://github.com/jenkinsci/github.com/jenkinsci/x`
it is the empty string. -/
theorem repoKey_marker_twice :
    repoKey ("https://".toList ++ scmMarker ++ (scmMarker ++ "x".toList)) = some [] := by
  decide

/-! ## C5: the retry loop of one page -/

theorem outcomesFrom_succ (env : Env) (vars : Variables) (c n : Nat) :
    outcomesFrom env vars c (n + 1) = env.execute c vars :: outcomesFrom env vars (c + 1) n := by
  unfold outcomesFrom
  rw [List.range_succ_eq_map]
  simp [Function.comp_def, Nat.add_assoc, Nat.add_comm 1]

theorem retryLoop_spec_aux (env : Env) (vars : Variables) (n : Nat) :
    ∀ (a : Nat) (err : Option GoString) (st : RunState), a + n = 5 →
      (retryLoop env vars (List.range' a n) err st).1
          = retryResult (a + 1) (outcomesFrom env vars st.calls n) err
      ∧ (retryLoop env vars (List.range' a n) err st).2.trace
          = st.trace ++ specRetryTrace vars (a + 1) (outcomesFrom env vars st.calls n)
      ∧ (retryLoop env vars (List.range' a n) err st).2.calls
          = st.calls
            + (specRetryTrace vars (a + 1) (outcomesFrom env vars st.calls n)).countP Event.isExec
      ∧ (retryLoop env vars (List.range' a n) err st).2.waits = st.waits := by
  induction n with
  | zero =>
    intro a err st _
    cases err <;> simp [retryLoop, outcomesFrom, retryResult, specRetryTrace]
  | succ n ih =>
    intro a err st ha
    rw [List.range'_succ, retryLoop, outcomesFrom_succ]
    cases ho : env.execute st.calls vars with
    | ok response =>
      simp [retryResult, specRetryTrace, Event.isExec]
    | error e =>
      have hrate := strings.Contains_iff e rateLimitText
      simp only []
      by_cases hr : strings.Contains e rateLimitText = true
      · have hr2 : rateLimitText <:+: e := hrate.1 hr
        obtain ⟨i1, i2, i3, i4⟩ := ih (a + 1) (some e)
          { waits := st.waits, calls := st.calls + 1, allPRs := st.allPRs,
            allFoundPRs := st.allFoundPRs,
            trace := st.trace ++ [Event.exec vars (Except.error e)]
              ++ [Event.sleep ((a + 1) * 5)] } (by omega)
        simp only [hr, if_true, retryResult, specRetryTrace, if_pos hr2]
        refine ⟨i1, ?_, ?_, i4⟩
        · rw [i2]; simp [Nat.mul_comm]
        · rw [i3]; simp [Event.isExec]; omega
      · have hr2 : ¬ rateLimitText <:+: e := fun h => hr (hrate.2 h)
        by_cases h4 : a = 4
        · subst h4
          simp [hr, retryResult, specRetryTrace, if_neg hr2, Event.isExec]
        · obtain ⟨i1, i2, i3, i4⟩ := ih (a + 1) (some e)
            { waits := st.waits, calls := st.calls + 1, allPRs := st.allPRs,
              allFoundPRs := st.allFoundPRs,
              trace := st.trace ++ [Event.exec vars (Except.error e)]
                ++ [Event.sleep ((a + 1) * 2)] } (by omega)
          have h5 : ¬ (a + 1 = 5) := by omega
          simp only [hr, h4, if_false, retryResult, specRetryTrace, if_neg hr2, if_neg h5,
            Bool.false_eq_true]
          refine ⟨i1, ?_, ?_, i4⟩
          · rw [i2]; simp [Nat.mul_comm]
          · rw [i3]; simp [Event.isExec]; omega

theorem specRetryTrace_calls (vars : Variables) (outs : List PageFetch) :
    ∀ i : Nat, (specRetryTrace vars i outs).countP Event.isExec ≤ outs.length := by
  induction outs with
  | nil => intro i; simp [specRetryTrace]
  | cons o rest ih =>
    intro i
    cases o with
    | ok r => simp [specRetryTrace, Event.isExec]
    | error e =>
      have := ih (i + 1)
      rw [specRetryTrace]
      split
      · simp [Event.isExec, List.countP_cons]; omega
      · split
        · simp [Event.isExec, List.countP_cons]
        · simp [Event.isExec, List.countP_cons]; omega

theorem specRetry_success_last (vars : Variables) (outs : List PageFetch) :
    ∀ (i : Nat) (err : Option GoString) (pre post : List Event) (v : Variables)
      (r : GraphQLSearchResponse),
      specRetryTrace vars i outs = pre ++ Event.exec v (.ok r) :: post →
        post = [] ∧ retryResult i outs err = .ok r := by
  induction outs with
  | nil =>
    intro i err pre post v r h
    simp [specRetryTrace] at h
  | cons o rest ih =>
    intro i err pre post v r h
    cases o with
    | ok r2 =>
      rw [specRetryTrace] at h
      cases pre with
      | nil =>
        simp only [List.nil_append, List.cons.injEq, Event.exec.injEq, Except.ok.injEq] at h
        obtain ⟨⟨_, hr⟩, hp⟩ := h
        exact ⟨hp.symm, by rw [retryResult, hr]⟩
      | cons p pre => simp at h
    | error e =>
      rw [specRetryTrace] at h
      cases pre with
      | nil => simp at h
      | cons p pre =>
        simp only [List.cons_append, List.cons.injEq] at h
        obtain ⟨_, h⟩ := h
        rw [retryResult]
        split at h
        · cases pre with
          | nil => simp at h
          | cons p2 pre =>
            simp only [List.cons_append, List.cons.injEq] at h
            next hr => rw [if_pos hr]; exact ih (i + 1) (some e) pre post v r h.2
        · split at h
          · simp at h
          · cases pre with
            | nil => simp at h
            | cons p2 pre =>
              simp only [List.cons_append, List.cons.injEq] at h
              next hr h5 => rw [if_neg hr, if_neg h5]; exact ih (i + 1) (some e) pre post v r h.2

theorem retryResult_all_fail (e1 e2 e3 e4 e5 : GoString) :
    retryResult 1 [.error e1, .error e2, .error e3, .error e4, .error e5] none
      = .error (if rateLimitText <:+: e5 then afterRetriesText ++ e5 else e5) := by
  simp only [retryResult]
  by_cases h5 : rateLimitText <:+: e5
  · simp [h5]
  · simp [h5]

/-- C5. For the fetch of one page and every behaviour of the executor: the
trace of the retry loop is the one the specification describes (attempt `i`
calls the executor; a success ends the fetch; a failure is followed by a sleep
of `5 * i` seconds if its message contains `rate limit` and of `2 * i` seconds
otherwise, except that a failure of the other kind on attempt 5 returns at
once); the executor is called at most 5 times; a successful call is the last
event and its response is the result; and when all 5 attempts fail the fetch
fails with the error of the 5th attempt (returned as it is after a failure of
the other kind, and behind the text `error executing GraphQL query after
retries: ` after a rate-limit failure). -/
theorem retry_policy (env : Env) (vars : Variables) (st : RunState) :
    (retryLoop env vars attempts none st).2.trace
        = st.trace ++ specRetryTrace vars 1 (outcomesFrom env vars st.calls 5)
    ∧ (specRetryTrace vars 1 (outcomesFrom env vars st.calls 5)).countP Event.isExec ≤ 5
    ∧ (retryLoop env vars attempts none st).2.calls
        = st.calls
          + (specRetryTrace vars 1 (outcomesFrom env vars st.calls 5)).countP Event.isExec
    ∧ (∀ (pre post : List Event) (v : Variables) (r : GraphQLSearchResponse),
        specRetryTrace vars 1 (outcomesFrom env vars st.calls 5)
            = pre ++ Event.exec v (.ok r) :: post →
          post = [] ∧ (retryLoop env vars attempts none st).1 = .ok r)
    ∧ (∀ e1 e2 e3 e4 e5 : GoString,
        outcomesFrom env vars st.calls 5
            = [.error e1, .error e2, .error e3, .error e4, .error e5] →
          (retryLoop env vars attempts none st).1
            = .error (if rateLimitText <:+: e5 then afterRetriesText ++ e5 else e5)) := by
  have hatt : attempts = List.range' 0 5 := by decide
  obtain ⟨a1, a2, a3, _⟩ := retryLoop_spec_aux env vars 5 0 none st (by omega)
  rw [← hatt] at a1 a2 a3
  refine ⟨a2, ?_, a3, ?_, ?_⟩
  · have := specRetryTrace_calls vars (outcomesFrom env vars st.calls 5) 1
    simpa [outcomesFrom] using this
  · intro pre post v r h
    obtain ⟨h1, h2⟩ := specRetry_success_last vars _ 1 none pre post v r h
    exact ⟨h1, by rw [a1]; exact h2⟩
  · intro e1 e2 e3 e4 e5 h
    rw [a1, h]
    exact retryResult_all_fail e1 e2 e3 e4 e5

set_option maxRecDepth 100000 in
/-- C5, witness: five rate-limit failures are followed by sleeps of 5, 10,
15, 20 and 25 seconds and the fetch fails with the wrapped last error; five
failures of the other kind are followed by sleeps of 2, 4, 6 and 8 seconds and
the fetch fails with the last error itself. -/
theorem retry_policy_witness :
    sleeps (retryLoop (failingEnv "API rate limit exceeded".toList) sampleVars attempts none
        (RunState.init none)).2.trace = [5, 10, 15, 20, 25]
    ∧ (retryLoop (failingEnv "API rate limit exceeded".toList) sampleVars attempts none
        (RunState.init none)).1
      = .error (afterRetriesText ++ "API rate limit exceeded".toList)
    ∧ sleeps (retryLoop (failingEnv "timeout".toList) sampleVars attempts none
        (RunState.init none)).2.trace = [2, 4, 6, 8]
    ∧ (retryLoop (failingEnv "timeout".toList) sampleVars attempts none
        (RunState.init none)).1 = .error "timeout".toList := by
  have h1 := retry_policy (failingEnv "API rate limit exceeded".toList) sampleVars
    (RunState.init none)
  have h2 := retry_policy (failingEnv "timeout".toList) sampleVars (RunState.init none)
  refine ⟨?_, ?_, ?_, ?_⟩
  · rw [h1.1]; decide
  · rw [h1.2.2.2.2 _ _ _ _ _ rfl]; exact congrArg Except.error (if_pos (by decide))
  · rw [h2.1]; decide
  · rw [h2.2.2.2.2 _ _ _ _ _ rfl]; exact congrArg Except.error (if_neg (by decide))

/-! ## C6: the limiter and the executor -/

theorem paceRun_append (a b : List Event) :
    ∀ s : Pace, paceRun s (a ++ b) = (paceRun s a).bind (fun s2 => paceRun s2 b) := by
  induction a with
  | nil => intro s; rfl
  | cons ev a ih =>
    intro s
    simp only [List.cons_append, paceRun]
    cases paceStep s ev with
    | none => rfl
    | some s2 => exact ih s2

theorem paceRun_isSome_of_prefix (pre tr : List Event) (s : Pace) (hp : pre <+: tr)
    (h : (paceRun s tr).isSome = true) : (paceRun s pre).isSome = true := by
  obtain ⟨rest, rfl⟩ := hp
  rw [paceRun_append] at h
  cases hpre : paceRun s pre with
  | none => rw [hpre] at h; simp at h
  | some s2 => rfl

theorem paceRun_closed (tr : List Event) (s : Pace)
    (h : paceRun Pace.closed tr = some s) : tr = [] := by
  cases tr with
  | nil => rfl
  | cons ev rest => simp [paceRun, paceStep] at h

theorem paceRun_failed_wait (pre post : List Event) (e : GoString) :
    ∀ (s s2 : Pace), paceRun s (pre ++ Event.wait (some e) :: post) = some s2 →
      post = [] ∧ s2 = Pace.closed := by
  induction pre with
  | nil =>
    intro s s2 h
    simp only [List.nil_append, paceRun] at h
    cases s with
    | idle =>
      simp only [paceStep] at h
      have hp := paceRun_closed post s2 h
      subst hp
      simp only [paceRun, Option.some.injEq] at h
      exact ⟨rfl, h.symm⟩
    | admitted => simp [paceStep] at h
    | failed k => simp [paceStep] at h
    | slept k => simp [paceStep] at h
    | closed => simp [paceStep] at h
  | cons ev pre ih =>
    intro s s2 h
    simp only [List.cons_append, paceRun] at h
    cases hs : paceStep s ev with
    | none => simp [hs] at h
    | some s3 =>
      simp only [hs] at h
      exact ih s3 s2 h

theorem paceStep_attempt_ok (i : Nat) (h1 : 1 ≤ i) (h5 : i ≤ 5) (v : Variables)
    (r : GraphQLSearchResponse) :
    paceStep (paceBefore i) (Event.exec v (.ok r)) = some Pace.idle := by
  unfold paceBefore
  by_cases hi : i = 1
  · rw [if_pos hi]; rfl
  · rw [if_neg hi]
    have : i - 1 < 5 := by omega
    simp [paceStep, this]

theorem paceStep_attempt_error (i : Nat) (h1 : 1 ≤ i) (h5 : i ≤ 5) (v : Variables)
    (e : GoString) :
    paceStep (paceBefore i) (Event.exec v (.error e)) = some (Pace.failed i) := by
  unfold paceBefore
  by_cases hi : i = 1
  · rw [if_pos hi, hi]; rfl
  · rw [if_neg hi]
    have h2 : i - 1 < 5 := by omega
    have h3 : i - 1 + 1 = i := by omega
    simp [paceStep, h2, h3]

theorem paceStep_sleep (i : Nat) (h1 : 1 ≤ i) (n : Nat) :
    paceStep (Pace.failed i) (Event.sleep n) = some (paceBefore (i + 1)) := by
  unfold paceBefore
  have : ¬ (i + 1 = 1) := by omega
  rw [if_neg this]
  rfl

theorem specRetryTrace_paced (vars : Variables) (outs : List PageFetch) :
    ∀ (i : Nat) (err : Option GoString), i + outs.length = 6 → 1 ≤ i →
      (∀ resp, retryResult i outs err = .ok resp → outs ≠ [] →
          paceRun (paceBefore i) (specRetryTrace vars i outs) = some Pace.idle)
      ∧ (∀ e, retryResult i outs err = .error e →
          paceRun (paceBefore i) (specRetryTrace vars i outs) = some (Pace.failed 5)
          ∨ paceRun (paceBefore i) (specRetryTrace vars i outs) = some (Pace.slept 5)) := by
  induction outs with
  | nil =>
    intro i err hi _
    have h6 : i = 6 := by simpa using hi
    subst h6
    refine ⟨fun _ _ h => absurd rfl h, fun _ _ => Or.inr rfl⟩
  | cons o rest ih =>
    intro i err hi h1
    simp only [List.length_cons] at hi
    have h5 : i ≤ 5 := by omega
    cases o with
    | ok r =>
      constructor
      · intro resp _ _
        rw [specRetryTrace, paceRun, paceStep_attempt_ok i h1 h5]
        rfl
      · intro e he
        simp [retryResult] at he
    | error e1 =>
      obtain ⟨ih1, ih2⟩ := ih (i + 1) (some e1) (by omega) (by omega)
      have hcont : ∀ n, paceRun (paceBefore i)
          (Event.exec vars (.error e1) :: Event.sleep n :: specRetryTrace vars (i + 1) rest)
            = paceRun (paceBefore (i + 1)) (specRetryTrace vars (i + 1) rest) := by
        intro n
        rw [paceRun, paceStep_attempt_error i h1 h5]
        simp only
        rw [paceRun, paceStep_sleep i h1]
      have hrest : ∀ resp, retryResult (i + 1) rest (some e1) = .ok resp → rest ≠ [] := by
        intro resp h hnil
        subst hnil
        simp [retryResult] at h
      rw [retryResult, specRetryTrace]
      by_cases hr : rateLimitText <:+: e1
      · simp only [hr, if_true, hcont]
        exact ⟨fun resp h _ => ih1 resp h (hrest resp h), ih2⟩
      · by_cases hi5 : i = 5
        · simp only [hr, hi5, if_false, if_true]
          constructor
          · intro resp h
            simp at h
          · intro e _
            left
            rw [paceRun, ← hi5, paceStep_attempt_error i h1 h5]
            rfl
        · simp only [hr, hi5, if_false, hcont]
          exact ⟨fun resp h _ => ih1 resp h (hrest resp h), ih2⟩

theorem retry_spec_trace (env : Env) (vars : Variables) (st : RunState) :
    (retryLoop env vars attempts none st).2.trace
        = st.trace ++ specRetryTrace vars 1 (outcomesFrom env vars st.calls 5)
    ∧ (retryLoop env vars attempts none st).1
        = retryResult 1 (outcomesFrom env vars st.calls 5) none
    ∧ (retryLoop env vars attempts none st).2.calls
        = st.calls
          + (specRetryTrace vars 1 (outcomesFrom env vars st.calls 5)).countP Event.isExec
    ∧ (retryLoop env vars attempts none st).2.waits = st.waits := by
  have hatt : attempts = List.range' 0 5 := by decide
  obtain ⟨a1, a2, a3, a4⟩ := retryLoop_spec_aux env vars 5 0 none st (by omega)
  rw [← hatt] at a1 a2 a3 a4
  exact ⟨a2, a1, a3, a4⟩

theorem pageLoop_eq_run (env : Env) (reg : Registry) (fuel : Nat) :
    ∀ (vars : Variables) (st : RunState),
      pageLoop env reg fuel vars st = loopResult (pageLoopRun env reg fuel vars st) := by
  induction fuel with
  | zero => intro vars st; rfl
  | succ fuel ih =>
    intro vars st
    rw [pageLoop, pageLoopRun]
    cases hw : env.limiter st.waits with
    | some e => rfl
    | none =>
      simp only
      generalize retryLoop env vars attempts none
        { st with waits := st.waits + 1, trace := st.trace ++ [Event.wait none] } = res
      obtain ⟨fetch, st1⟩ := res
      cases fetch with
      | error e => rfl
      | ok response =>
        simp only
        by_cases hn : response.HasNextPage = true
        · simp only [hn, if_true]
          exact ih _ _
        · simp only [hn]
          rfl

theorem windowLoop_eq_run (env : Env) (reg : Registry) (endDate : Time)
    (pageFuel fuel : Nat) :
    ∀ (startDate : Time) (st : RunState),
      windowLoop env reg endDate pageFuel fuel startDate st
        = loopResult (windowLoopRun env reg endDate pageFuel fuel startDate st) := by
  induction fuel with
  | zero =>
    intro startDate st
    rw [windowLoop, windowLoopRun]
    split <;> rfl
  | succ fuel ih =>
    intro startDate st
    rw [windowLoop, windowLoopRun]
    split
    · simp only
      rw [pageLoop_eq_run]
      generalize pageLoopRun env reg pageFuel
        { query := searchQuery "jenkinsci".toList startDate (windowEnd startDate endDate),
          cursor := none } st = obs
      obtain ⟨e, st1⟩ := obs
      cases e with
      | done => exact ih _ _
      | failed e => rfl
      | outOfFuel => rfl
    · rfl

theorem fetch_eq_run (env : Env) (config : Config) (reg : Registry)
    (found0 : GoSlice PullRequestData) (windowFuel pageFuel : Nat) :
    fetchPullRequestsGraphQL env config reg found0 windowFuel pageFuel
      = resultOfRun (fetchRun env config reg found0 windowFuel pageFuel) := by
  unfold fetchPullRequestsGraphQL fetchRun
  rw [windowLoop_eq_run]
  generalize windowLoopRun env reg config.EndDate pageFuel windowFuel config.StartDate
    (RunState.init found0) = obs
  obtain ⟨e, st1⟩ := obs
  cases e <;> rfl

theorem pageLoopRun_paced (env : Env) (reg : Registry) (fuel : Nat) :
    ∀ (vars : Variables) (st : RunState),
      paceRun Pace.idle st.trace = some Pace.idle →
        PacedEnd (pageLoopRun env reg fuel vars st) := by
  induction fuel with
  | zero => intro vars st hp; exact hp
  | succ fuel ih =>
    intro vars st hp
    rw [pageLoopRun]
    cases hw : env.limiter st.waits with
    | some e =>
      refine Or.inr (Or.inr ⟨?_, e, rfl, by simp⟩)
      simp only [paceRun_append, hp, Option.some_bind]
      rfl
    | none =>
      simp only
      obtain ⟨t1, t2, _, _⟩ := retry_spec_trace env vars
        { st with waits := st.waits + 1, trace := st.trace ++ [Event.wait none] }
      generalize retryLoop env vars attempts none
        { st with waits := st.waits + 1, trace := st.trace ++ [Event.wait none] } = res at t1 t2
      obtain ⟨fetch, st1⟩ := res
      simp only at t1 t2
      obtain ⟨s1, s2⟩ := specRetryTrace_paced vars (outcomesFrom env vars st.calls 5) 1 none
        (by simp [outcomesFrom]) (le_refl _)
      have hadm : paceRun Pace.idle (st.trace ++ [Event.wait none]) = some (paceBefore 1) := by
        rw [paceRun_append, hp]
        rfl
      have hst1 : paceRun Pace.idle st1.trace
          = paceRun (paceBefore 1) (specRetryTrace vars 1 (outcomesFrom env vars st.calls 5)) := by
        rw [t1, paceRun_append, hadm]
        rfl
      cases fetch with
      | error e =>
        simp only
        rcases s2 e t2.symm with h | h
        · exact Or.inl (hst1.trans h)
        · exact Or.inr (Or.inl (hst1.trans h))
      | ok response =>
        simp only
        have hidle : paceRun Pace.idle st1.trace = some Pace.idle :=
          hst1.trans (s1 response t2.symm (by simp [outcomesFrom]))
        obtain ⟨_, _, p3, _, _⟩ := processNodes_spec reg response.Nodes st1
        have hidle2 : paceRun Pace.idle (processNodes reg st1 response.Nodes).trace
            = some Pace.idle := by rw [p3]; exact hidle
        by_cases hn : response.HasNextPage = true
        · simp only [hn, if_true]
          exact ih _ _ hidle2
        · simp only [hn]
          exact hidle2

theorem windowLoopRun_paced (env : Env) (reg : Registry) (endDate : Time)
    (pageFuel fuel : Nat) :
    ∀ (startDate : Time) (st : RunState),
      paceRun Pace.idle st.trace = some Pace.idle →
        PacedEnd (windowLoopRun env reg endDate pageFuel fuel startDate st) := by
  induction fuel with
  | zero =>
    intro startDate st hp
    rw [windowLoopRun]
    split <;> exact hp
  | succ fuel ih =>
    intro startDate st hp
    rw [windowLoopRun]
    split
    · simp only
      have hpage := pageLoopRun_paced env reg pageFuel
        { query := searchQuery "jenkinsci".toList startDate (windowEnd startDate endDate),
          cursor := none } st hp
      generalize pageLoopRun env reg pageFuel
        { query := searchQuery "jenkinsci".toList startDate (windowEnd startDate endDate),
          cursor := none } st = obs at hpage
      obtain ⟨e, st1⟩ := obs
      cases e with
      | done => exact ih _ _ hpage
      | failed e => exact hpage
      | outOfFuel => exact hpage
    · exact hp

theorem fetchRun_paced (env : Env) (config : Config) (reg : Registry)
    (found0 : GoSlice PullRequestData) (windowFuel pageFuel : Nat) :
    PacedEnd (fetchRun env config reg found0 windowFuel pageFuel) :=
  windowLoopRun_paced env reg _ _ _ _ _ rfl

theorem PacedEnd_isSome (obs : LoopEnd × RunState) (h : PacedEnd obs) :
    (paceRun Pace.idle obs.2.trace).isSome = true := by
  obtain ⟨e, st⟩ := obs
  cases e with
  | done => have h2 : paceRun Pace.idle st.trace = some Pace.idle := h; simp [h2]
  | outOfFuel => have h2 : paceRun Pace.idle st.trace = some Pace.idle := h; simp [h2]
  | failed e =>
    have h2 : paceRun Pace.idle st.trace = some (Pace.failed 5)
        ∨ paceRun Pace.idle st.trace = some (Pace.slept 5)
        ∨ (paceRun Pace.idle st.trace = some Pace.closed
            ∧ ∃ e2, e = rateLimiterText ++ e2
                ∧ st.trace.getLast? = some (Event.wait (some e2))) := h
    rcases h2 with h3 | h3 | ⟨h3, _⟩ <;> simp [h3]

theorem fetch_error_nil (env : Env) (config : Config) (reg : Registry)
    (found0 : GoSlice PullRequestData) (windowFuel pageFuel : Nat) (r : FetchResult)
    (h : fetchPullRequestsGraphQL env config reg found0 windowFuel pageFuel = some r)
    (herr : r.err ≠ none) : r.result = none :=
  (fetch_collected env config reg found0 windowFuel pageFuel r h).2.2 herr

/-- C6, as amended. In every execution of `fetchPullRequestsGraphQL` the
trace obeys the pacing automaton: the limiter is waited on once per page
fetch; the first executor call of a page directly follows a limiter admission;
a further call under the same admission is made only as a retry of a failed
call, after a backoff sleep and without waiting on the limiter again; at most
5 calls are made under one admission; and after a successful call no executor
call is made before the next limiter admission. This holds for the finished
run `r` and for every prefix of the trace of the run observed under any
iteration budgets, so also for executions that do not end. If a limiter wait
fails, it is the last event of the run (no executor call follows it) and the
function returns a `nil` slice with the error `rate limiter error: ` followed
by the limiter's message. -/
theorem limiter_paces_page_fetches (env : Env) (config : Config) (reg : Registry)
    (found0 : GoSlice PullRequestData) (windowFuel pageFuel : Nat) (r : FetchResult)
    (h : fetchPullRequestsGraphQL env config reg found0 windowFuel pageFuel = some r) :
    paced r.final.trace = true
    ∧ (r.err = none → paceRun Pace.idle r.final.trace = some Pace.idle)
    ∧ (∀ (pre post : List Event) (e : GoString),
        r.final.trace = pre ++ Event.wait (some e) :: post →
          post = [] ∧ r.err = some (rateLimiterText ++ e) ∧ r.result = none)
    ∧ resultOfRun (fetchRun env config reg found0 windowFuel pageFuel) = some r
    ∧ (∀ (windowFuel2 pageFuel2 : Nat) (pre : List Event),
        pre <+: (fetchRun env config reg found0 windowFuel2 pageFuel2).2.trace →
          (paceRun Pace.idle pre).isSome = true) := by
  have hrun : resultOfRun (fetchRun env config reg found0 windowFuel pageFuel) = some r := by
    rw [← fetch_eq_run]; exact h
  have hp := fetchRun_paced env config reg found0 windowFuel pageFuel
  have hall : ∀ (windowFuel2 pageFuel2 : Nat) (pre : List Event),
      pre <+: (fetchRun env config reg found0 windowFuel2 pageFuel2).2.trace →
        (paceRun Pace.idle pre).isSome = true := by
    intro wf2 pf2 pre hpre
    exact paceRun_isSome_of_prefix pre _ Pace.idle hpre
      (PacedEnd_isSome _ (fetchRun_paced env config reg found0 wf2 pf2))
  generalize fetchRun env config reg found0 windowFuel pageFuel = obs at hrun hp
  obtain ⟨e, st⟩ := obs
  cases e with
  | outOfFuel => simp [resultOfRun] at hrun
  | done =>
    simp only [resultOfRun, Option.some.injEq] at hrun
    subst hrun
    have hidle : paceRun Pace.idle st.trace = some Pace.idle := hp
    refine ⟨by simp [paced, hidle], fun _ => hidle, ?_, rfl, hall⟩
    intro pre post e2 htr
    simp only at htr
    rw [htr] at hidle
    have := (paceRun_failed_wait pre post e2 _ _ hidle).2
    cases this
  | failed e =>
    simp only [resultOfRun, Option.some.injEq] at hrun
    subst hrun
    have h2 : paceRun Pace.idle st.trace = some (Pace.failed 5)
        ∨ paceRun Pace.idle st.trace = some (Pace.slept 5)
        ∨ (paceRun Pace.idle st.trace = some Pace.closed
            ∧ ∃ e2, e = rateLimiterText ++ e2
                ∧ st.trace.getLast? = some (Event.wait (some e2))) := hp
    refine ⟨?_, fun hnone => by simp at hnone, ?_, rfl, hall⟩
    · rcases h2 with h3 | h3 | ⟨h3, _⟩ <;> simp [paced, h3]
    · intro pre post e2 htr
      simp only at htr
      rcases h2 with h3 | h3 | ⟨h3, e3, he3, hlast⟩
      · rw [htr] at h3
        have := (paceRun_failed_wait pre post e2 _ _ h3).2
        cases this
      · rw [htr] at h3
        have := (paceRun_failed_wait pre post e2 _ _ h3).2
        cases this
      · rw [htr] at h3 hlast
        have hpost := (paceRun_failed_wait pre post e2 _ _ h3).1
        subst hpost
        have hlast2 : (pre ++ [Event.wait (some e2)]).getLast? = some (Event.wait (some e2)) := by
          simp
        rw [hlast2] at hlast
        simp only [Option.some.injEq, Event.wait.injEq] at hlast
        subst hlast
        exact ⟨rfl, by rw [he3], rfl⟩

set_option maxRecDepth 100000 in
theorem cancelledRun_eq :
    fetchPullRequestsGraphQL cancelledEnv sampleConfig sampleRegistry none 1 2
      = some cancelledResult := by
  rfl

set_option maxRecDepth 100000 in
/-- C6, witness: a run whose second limiter wait fails after one page. -/
theorem limiter_paces_page_fetches_witness :
    fetchPullRequestsGraphQL cancelledEnv sampleConfig sampleRegistry none 1 2
      = some cancelledResult
    ∧ paced cancelledResult.final.trace = true
    ∧ cancelledResult.err = some (rateLimiterText ++ "context canceled".toList)
    ∧ cancelledResult.result = none :=
  ⟨cancelledRun_eq,
    (limiter_paces_page_fetches cancelledEnv sampleConfig sampleRegistry none 1 2
      cancelledResult cancelledRun_eq).1,
    ((limiter_paces_page_fetches cancelledEnv sampleConfig sampleRegistry none 1 2
      cancelledResult cancelledRun_eq).2.2.1
        [Event.wait none, Event.exec sampleVars (.ok samplePageMore)] []
        "context canceled".toList rfl).2⟩

set_option maxRecDepth 100000 in
/-- What the pacing automaton accepts and rejects: a retry after a failed
call and its sleep is accepted; a second call after a successful one, a call
without any admission, a retry without the backoff sleep, a sixth call under
one admission and a call after a failed wait are rejected. -/
theorem paced_examples :
    paced flakyResult.final.trace = true
    ∧ paced timeoutResult.final.trace = true
    ∧ paced [Event.wait none, Event.exec sampleVars (.ok samplePage),
        Event.exec sampleVars (.ok samplePage)] = false
    ∧ paced [Event.exec sampleVars (.ok samplePage)] = false
    ∧ paced [Event.wait none, Event.exec sampleVars (.error "timeout".toList),
        Event.exec sampleVars (.ok samplePage)] = false
    ∧ paced (timeoutResult.final.trace
        ++ [Event.sleep 10, Event.exec sampleVars (.ok samplePage)]) = false
    ∧ paced [Event.wait (some "context canceled".toList),
        Event.exec sampleVars (.ok samplePage)] = false := by
  refine ⟨by decide, by decide, by decide, by decide, by decide, by decide, by decide⟩

set_option maxRecDepth 100000 in
/-- C6, counterexample: when the first call of a page fails and the retry
succeeds, the executor is called twice after a single limiter wait, so the
retry has no limiter admission of its own. -/
theorem retry_without_own_wait_counterexample :
    fetchPullRequestsGraphQL flakyEnv sampleConfig sampleRegistry none 1 1 = some flakyResult
    ∧ flakyResult.final.waits = 1
    ∧ flakyResult.final.calls = 2
    ∧ flakyResult.final.trace
        = [Event.wait none, Event.exec sampleVars (.error "timeout".toList),
            Event.sleep 2, Event.exec sampleVars (.ok samplePage)]
    ∧ ownWait false flakyResult.final.trace = false :=
  ⟨rfl, rfl, rfl, rfl, rfl⟩

/-! ## C7: what a failed run leaves behind -/

theorem lastCall_append_of_some (a b : List Event) (x : Event) (h : lastCall b = some x) :
    lastCall (a ++ b) = some x := by
  induction a with
  | nil => exact h
  | cons ev a ih => simp [lastCall, ih]

theorem specRetry_error_last (vars : Variables) (outs : List PageFetch) :
    ∀ (i : Nat) (err : Option GoString) (e : GoString), outs ≠ [] →
      retryResult i outs err = .error e →
        ∃ ev, lastCall (specRetryTrace vars i outs) = some ev ∧ ev.failed = true := by
  induction outs with
  | nil => intro i err e h; exact absurd rfl h
  | cons o rest ih =>
    intro i err e _ hres
    cases o with
    | ok r => simp [retryResult] at hres
    | error e1 =>
      have hself : ∀ n, lastCall [Event.exec vars (Except.error e1), Event.sleep n]
          = some (Event.exec vars (Except.error e1)) := fun n => rfl
      rw [retryResult] at hres
      rw [specRetryTrace]
      cases rest with
      | nil =>
        refine ⟨Event.exec vars (.error e1), ?_, rfl⟩
        split
        · simp [specRetryTrace, lastCall]
        · split
          · simp [lastCall]
          · simp [specRetryTrace, lastCall]
      | cons o2 rest2 =>
        split at hres
        · next hr =>
          obtain ⟨ev, h1, h2⟩ := ih (i + 1) (some e1) e (by simp) hres
          refine ⟨ev, ?_, h2⟩
          rw [if_pos hr]
          exact lastCall_append_of_some [Event.exec vars (.error e1), Event.sleep (5 * i)] _ ev h1
        · next hr =>
          split at hres
          · next h5 =>
            refine ⟨Event.exec vars (.error e1), ?_, rfl⟩
            rw [if_neg hr, if_pos h5]
            rfl
          · next h5 =>
            obtain ⟨ev, h1, h2⟩ := ih (i + 1) (some e1) e (by simp) hres
            refine ⟨ev, ?_, h2⟩
            rw [if_neg hr, if_neg h5]
            exact lastCall_append_of_some [Event.exec vars (.error e1), Event.sleep (2 * i)]
              _ ev h1

theorem pageLoop_error_last (env : Env) (reg : Registry) (fuel : Nat) :
    ∀ (vars : Variables) (st : RunState) (e : GoString) (st2 : RunState),
      pageLoop env reg fuel vars st = some (some e, st2) →
        ∃ ev, lastCall st2.trace = some ev ∧ ev.failed = true := by
  induction fuel with
  | zero => intro vars st e st2 h; simp [pageLoop] at h
  | succ fuel ih =>
    intro vars st e st2 h
    rw [pageLoop] at h
    cases hw : env.limiter st.waits with
    | some e1 =>
      simp only [hw] at h
      cases h
      exact ⟨Event.wait (some e1), lastCall_append_of_some _ _ _ rfl, rfl⟩
    | none =>
      simp only [hw] at h
      obtain ⟨t1, t2, _, _⟩ := retry_spec_trace env vars
        { st with waits := st.waits + 1, trace := st.trace ++ [Event.wait none] }
      generalize retryLoop env vars attempts none
        { st with waits := st.waits + 1, trace := st.trace ++ [Event.wait none] } = res at h t1 t2
      obtain ⟨fetch, st1⟩ := res
      simp only at t1 t2
      cases fetch with
      | error e1 =>
        simp only at h
        cases h
        obtain ⟨ev, h1, h2⟩ := specRetry_error_last vars (outcomesFrom env vars st.calls 5) 1 none
          e (by simp [outcomesFrom]) t2.symm
        exact ⟨ev, by rw [t1]; exact lastCall_append_of_some _ _ _ h1, h2⟩
      | ok response =>
        simp only at h
        by_cases hn : response.HasNextPage = true
        · simp only [hn, if_true] at h
          exact ih _ _ _ _ h
        · simp only [hn] at h
          cases h

theorem windowLoop_error_last (env : Env) (reg : Registry) (endDate : Time)
    (pageFuel fuel : Nat) :
    ∀ (startDate : Time) (st : RunState) (e : GoString) (st2 : RunState),
      windowLoop env reg endDate pageFuel fuel startDate st = some (some e, st2) →
        ∃ ev, lastCall st2.trace = some ev ∧ ev.failed = true := by
  induction fuel with
  | zero =>
    intro startDate st e st2 h
    rw [windowLoop] at h
    split at h <;> cases h
  | succ fuel ih =>
    intro startDate st e st2 h
    rw [windowLoop] at h
    split at h
    · simp only at h
      split at h
      · cases h
      · next e1 st1 hpage =>
        cases h
        exact pageLoop_error_last env reg pageFuel _ _ _ _ hpage
      · next st1 hpage => exact ih _ _ _ _ h
    · cases h

theorem allFound_of_run (env : Env) (config : Config) (reg : Registry)
    (windowFuel pageFuel : Nat) (r : FetchResult)
    (h : fetchPullRequestsGraphQL env config reg none windowFuel pageFuel = some r) :
    r.final.allFoundPRs.elems = (received r.final.trace).map (foundRecord reg) := by
  have hc := (fetch_collected env config reg none windowFuel pageFuel r h).1
  simpa [GoSlice.elems] using hc.1

/-- C7, as amended. Whenever `fetchPullRequestsGraphQL` fails, it returns its
error together with a `nil` Matched slice; the last limiter wait or executor
call of the run is the failed one (no query is issued after it); and `main`
stops with a fatal message without writing either file. The global
`allFoundPRs` is not reset: it still holds one record per result received
before the failure. -/
theorem failed_run_returns_nil_and_writes_nothing (env : Env) (config : Config)
    (reg : Registry) (windowFuel pageFuel : Nat) (r : FetchResult) (e : GoString)
    (h : fetchPullRequestsGraphQL env config reg none windowFuel pageFuel = some r)
    (herr : r.err = some e) :
    r.result = none
    ∧ (∃ ev, lastCall r.final.trace = some ev ∧ ev.failed = true)
    ∧ (∀ writeErr : GoString → Option GoString,
        ∃ out, mainAfterRegistry env writeErr config reg windowFuel pageFuel = some out
          ∧ out.fatal = some (fetchFatalText ++ e) ∧ out.writes = [])
    ∧ r.final.allFoundPRs.elems = (received r.final.trace).map (foundRecord reg) := by
  have hnil := fetch_error_nil env config reg none windowFuel pageFuel r h (by rw [herr]; simp)
  have hfound := (allFound_of_run env config reg windowFuel pageFuel r h)
  refine ⟨hnil, ?_, ?_, hfound⟩
  · unfold fetchPullRequestsGraphQL at h
    split at h
    · cases h
    · next e1 st hw =>
      cases h
      exact windowLoop_error_last env reg _ _ _ _ _ _ _ hw
    · next st hw =>
      cases h
      simp at herr
  · intro writeErr
    refine ⟨{ fatal := some (fetchFatalText ++ e), writes := [] }, ?_, rfl, rfl⟩
    unfold mainAfterRegistry
    rw [h]
    simp only [herr]

set_option maxRecDepth 100000 in
theorem timeoutRun_eq :
    fetchPullRequestsGraphQL (failingEnv "timeout".toList) sampleConfig sampleRegistry none 1 1
      = some timeoutResult := by
  rfl

set_option maxRecDepth 100000 in
/-- C7, witness: a run whose first page fails five times. -/
theorem failed_run_returns_nil_and_writes_nothing_witness :
    fetchPullRequestsGraphQL (failingEnv "timeout".toList) sampleConfig sampleRegistry none 1 1
      = some timeoutResult
    ∧ timeoutResult.err = some "timeout".toList
    ∧ timeoutResult.result = none
    ∧ lastCall timeoutResult.final.trace = some (Event.exec sampleVars (.error "timeout".toList)) :=
  ⟨timeoutRun_eq, rfl,
    (failed_run_returns_nil_and_writes_nothing (failingEnv "timeout".toList) sampleConfig
      sampleRegistry 1 1 timeoutResult "timeout".toList timeoutRun_eq rfl).1,
    rfl⟩

set_option maxRecDepth 100000 in
/-- C7, counterexample: the run against `cancelledEnv` fails at the second
limiter wait, after one page of three results; it returns an error and a `nil`
slice, yet the three records gathered from that page are still in
`allFoundPRs`. -/
theorem failed_run_keeps_allFound_counterexample :
    fetchPullRequestsGraphQL cancelledEnv sampleConfig sampleRegistry none 1 2
      = some cancelledResult
    ∧ cancelledResult.err = some "rate limiter error: context canceled".toList
    ∧ cancelledResult.result = none
    ∧ cancelledResult.final.allFoundPRs.elems
        = [foundRecord sampleRegistry sampleNode, foundRecord sampleRegistry sampleBotNode,
            foundRecord sampleRegistry sampleForeignNode]
    ∧ cancelledResult.final.allFoundPRs.elems ≠ [] :=
  ⟨rfl, rfl, rfl, rfl, by simp [cancelledResult, GoSlice.elems]⟩

/-! ## C8: the enumeration order of the update-center map -/

theorem Registry.set_comm (m : Registry) (k1 k2 : GoString) (v1 v2 : PluginInfo)
    (h : k1 ≠ k2) : (m.set k1 v1).set k2 v2 = (m.set k2 v2).set k1 v1 := by
  funext q
  unfold Registry.set
  by_cases h1 : q = k1
  · by_cases h2 : q = k2
    · exact absurd (h1.symm.trans h2) h
    · simp [h1, h]
  · by_cases h2 : q = k2
    · simp [h2, Ne.symm h]
    · simp [h1, h2]

theorem registerPlugin_comm (z : Registry) (x y : GoString × GoString)
    (h : x = y ∨ distinctKeys x y) :
    registerPlugin (registerPlugin z x) y = registerPlugin (registerPlugin z y) x := by
  rcases h with h | h
  · rw [h]
  · unfold registerPlugin
    cases hx : repoKey x.2 with
    | none => simp
    | some kx =>
      cases hy : repoKey y.2 with
      | none => simp
      | some ky =>
        simp only
        have hne : kx ≠ ky := by
          rcases h with h | h
          · rw [hx] at h; cases h
          · intro hk; apply h; rw [hx, hy, hk]
        exact Registry.set_comm z kx ky _ _ hne

theorem distinctKeys_symm (a b : GoString × GoString) (h : distinctKeys a b) :
    distinctKeys b a := by
  unfold distinctKeys at *
  rcases h with h | h
  · by_cases hb : repoKey b.2 = none
    · exact Or.inl hb
    · right; rw [h]; exact hb
  · exact Or.inr (fun e => h e.symm)

theorem foldl_register_isSome (es : List (GoString × GoString)) :
    ∀ (z : Registry) (k : GoString),
      (es.foldl registerPlugin z k).isSome = true
        ↔ (z k).isSome = true ∨ ∃ en ∈ es, repoKey en.2 = some k := by
  induction es with
  | nil => intro z k; simp
  | cons en es ih =>
    intro z k
    rw [List.foldl_cons, ih]
    have hstep : (registerPlugin z en k).isSome = true
        ↔ (z k).isSome = true ∨ repoKey en.2 = some k := by
      unfold registerPlugin
      cases hk : repoKey en.2 with
      | none => simp
      | some kk =>
        simp only [Registry.set]
        by_cases hq : k = kk
        · simp [hq]
        · have : ¬ kk = k := fun e => hq e.symm
          simp [hq, this]
    rw [hstep]
    simp only [List.mem_cons, exists_eq_or_imp]
    tauto

/-- C8, as amended. The set of keys of the registry built by
`fetchJenkinsPluginInfo` does not depend on the order in which the plugin
entries are enumerated. When no two entries derive the same key, the whole
registry does not depend on that order either, and then, for a fixed behaviour
of the limiter and of the executor, `fetchPullRequestsGraphQL` returns the same
result and leaves the same state (the same Matched and AllFound sequences)
whichever order was used. -/
theorem registry_order_independent (entries entries2 : List (GoString × GoString))
    (hperm : entries.Perm entries2) :
    (∀ k : GoString, (buildRegistry entries k).isSome = (buildRegistry entries2 k).isSome)
    ∧ (entries.Pairwise distinctKeys →
        buildRegistry entries = buildRegistry entries2
        ∧ (∀ pr : SearchNode,
            foundRecord (buildRegistry entries) pr = foundRecord (buildRegistry entries2) pr
            ∧ matchedRecord (buildRegistry entries) pr
                = matchedRecord (buildRegistry entries2) pr)
        ∧ ∀ (env : Env) (config : Config) (found0 : GoSlice PullRequestData)
            (windowFuel pageFuel : Nat),
            fetchPullRequestsGraphQL env config (buildRegistry entries) found0 windowFuel pageFuel
              = fetchPullRequestsGraphQL env config (buildRegistry entries2) found0
                  windowFuel pageFuel) := by
  constructor
  · intro k
    have h1 := foldl_register_isSome entries Registry.empty k
    have h2 := foldl_register_isSome entries2 Registry.empty k
    unfold buildRegistry
    rw [Bool.eq_iff_iff, h1, h2]
    simp only [hperm.mem_iff]
  · intro hpw
    have heq : buildRegistry entries = buildRegistry entries2 := by
      unfold buildRegistry
      apply List.Perm.foldl_eq' hperm
      intro x hx y hy z
      apply registerPlugin_comm
      by_cases hxy : x = y
      · exact Or.inl hxy
      · exact Or.inr (hpw.forall (fun a b hab => distinctKeys_symm a b hab) hx hy hxy)
    refine ⟨heq, fun pr => by rw [heq]; exact ⟨rfl, rfl⟩, fun env config found0 wf pf => by rw [heq]⟩

set_option maxRecDepth 100000 in
/-- C8, witness: two plugins in two repositories, enumerated in both orders. -/
theorem registry_order_independent_witness :
    twoRepoEntries.Perm twoRepoEntries.reverse
    ∧ twoRepoEntries.Pairwise distinctKeys
    ∧ buildRegistry twoRepoEntries = buildRegistry twoRepoEntries.reverse :=
  ⟨(List.reverse_perm twoRepoEntries).symm, by decide,
    ((registry_order_independent twoRepoEntries twoRepoEntries.reverse
      (List.reverse_perm twoRepoEntries).symm).2 (by decide)).1⟩

set_option maxRecDepth 100000 in
/-- C8, counterexample: two plugins hosted in one repository. Enumerated in
one order the registry names the second plugin for that repository, in the
other order the first, and the `PluginName` written into the record of a pull
request of that repository differs accordingly. -/
theorem registry_depends_on_order_counterexample :
    sharedRepoEntries.Perm sharedRepoEntries.reverse
    ∧ (buildRegistry sharedRepoEntries "blueocean-plugin".toList).map PluginInfo.Name
        = some "blueocean-web".toList
    ∧ (buildRegistry sharedRepoEntries.reverse "blueocean-plugin".toList).map PluginInfo.Name
        = some "blueocean".toList
    ∧ (foundRecord (buildRegistry sharedRepoEntries) blueoceanNode).PluginName
        ≠ (foundRecord (buildRegistry sharedRepoEntries.reverse) blueoceanNode).PluginName
    ∧ (matchedRecord (buildRegistry sharedRepoEntries) blueoceanNode).PluginName
        ≠ (matchedRecord (buildRegistry sharedRepoEntries.reverse) blueoceanNode).PluginName :=
  ⟨(List.reverse_perm sharedRepoEntries).symm, by decide, by decide, by decide, by decide⟩

/-! ## C9: the labels of the two records -/

theorem foldl_append_elems (names : List GoString) :
    ∀ s : GoSlice GoString, (names.foldl GoSlice.append s).elems = s.elems ++ names := by
  induction names with
  | nil => intro s; simp
  | cons a rest ih =>
    intro s
    rw [List.foldl_cons, ih, GoSlice.elems_append]
    simp

/-- The label loop keeps every label name, in order; the slice it builds is
non-nil as soon as there is one label, and `nil` when there is none. -/
theorem collectLabels_spec (names : List GoString) :
    (collectLabels names).elems = names
    ∧ (names ≠ [] → collectLabels names = some names)
    ∧ (names = [] → collectLabels names = none) := by
  have h := foldl_append_elems names none
  refine ⟨by simpa [collectLabels, GoSlice.elems] using h, ?_, ?_⟩
  · intro hne
    cases names with
    | nil => exact absurd rfl hne
    | cons a rest =>
      have h2 := foldl_append_elems rest (some [a])
      unfold collectLabels
      rw [List.foldl_cons]
      have hstep : GoSlice.append none a = some [a] := rfl
      rw [hstep]
      cases hf : rest.foldl GoSlice.append (some [a]) with
      | none =>
        rw [hf] at h2
        simp [GoSlice.elems] at h2
      | some l =>
        rw [hf] at h2
        simp only [GoSlice.elems] at h2
        rw [h2]; rfl
  · intro h0
    subst h0
    rfl

/-- The two records of a result agree on every field but the labels. -/
theorem matchedRecord_fields (reg : Registry) (pr : SearchNode) :
    { matchedRecord reg pr with Labels := some [] } = foundRecord reg pr
    ∧ (matchedRecord reg pr).Labels.elems = pr.Labels
    ∧ (foundRecord reg pr).Labels = some []
    ∧ (matchedRecord reg pr).PluginName = (reg.get pr.RepositoryName).1.Name
    ∧ (matchedRecord reg pr).Repository
        = pr.RepositoryOwnerLogin ++ "/".toList ++ pr.RepositoryName :=
  ⟨rfl, (collectLabels_spec pr.Labels).1, rfl, rfl, rfl⟩

set_option maxRecDepth 100000 in
/-- C9, the failing input evaluated. For the pull request `unlabelledNode`
(in the registry, by `alice`, body `This uses the plugin-Modernizer recipe`,
no labels) the run appends one record to each collection; the record in
`allFoundPRs` carries the empty non-nil list, but the record in Matched
carries the `nil` slice (encoded as `null`), not an empty list. The two
records agree on every other field. -/
theorem unlabelled_match_has_nil_labels :
    specPassesFilter sampleRegistry unlabelledNode
    ∧ (fetchPullRequestsGraphQL unlabelledEnv sampleConfig sampleRegistry none 1 1).map
        (fun r => r.result) = some (some [matchedRecord sampleRegistry unlabelledNode])
    ∧ (fetchPullRequestsGraphQL unlabelledEnv sampleConfig sampleRegistry none 1 1).map
        (fun r => r.final.allFoundPRs) = some (some [foundRecord sampleRegistry unlabelledNode])
    ∧ (matchedRecord sampleRegistry unlabelledNode).Labels = none
    ∧ (matchedRecord sampleRegistry unlabelledNode).Labels ≠ some []
    ∧ (foundRecord sampleRegistry unlabelledNode).Labels = some []
    ∧ { matchedRecord sampleRegistry unlabelledNode with Labels := some [] }
        = foundRecord sampleRegistry unlabelledNode := by
  refine ⟨by decide, by decide, by decide, rfl, by decide, rfl, rfl⟩

/-! ## C10: the body of the update center -/

namespace strings

theorem HasPrefix_single (a c : Char) (t : GoString) :
    HasPrefix (a :: t) [c] = decide (a = c) := by
  by_cases h : a = c <;> simp [HasPrefix, h]

theorem LastIndex_cons (c : Char) (t sep : GoString) :
    LastIndex (c :: t) sep =
      if 0 ≤ LastIndex t sep then LastIndex t sep + 1
      else if HasPrefix (c :: t) sep then 0 else -1 := by
  rw [LastIndex]

theorem Index_first (c : Char) (pre rest : GoString) (h : c ∉ pre) :
    Index (pre ++ c :: rest) [c] = pre.length := by
  induction pre with
  | nil => simp [Index_cons, HasPrefix_single]
  | cons a pre ih =>
    have ha : a ≠ c := fun e => h (by simp [e])
    have hpre : c ∉ pre := fun e => h (by simp [e])
    rw [List.cons_append, Index_cons, HasPrefix_single, ih hpre]
    simp [ha]

theorem LastIndex_absent (c : Char) (s : GoString) (h : c ∉ s) : LastIndex s [c] = -1 := by
  induction s with
  | nil => simp [LastIndex]
  | cons a s ih =>
    have ha : a ≠ c := fun e => h (by simp [e])
    have hs : c ∉ s := fun e => h (by simp [e])
    rw [LastIndex_cons, HasPrefix_single, ih hs]
    simp [ha]

theorem LastIndex_last (c : Char) (x post : GoString) (h : c ∉ post) :
    LastIndex (x ++ c :: post) [c] = x.length := by
  induction x with
  | nil =>
    rw [List.nil_append, LastIndex_cons, HasPrefix_single, LastIndex_absent c post h]
    simp
  | cons a x ih =>
    rw [List.cons_append, LastIndex_cons, ih]
    simp

theorem Index_split (c : Char) (s : GoString) :
    ∀ n : Nat, Index s [c] = (n : Int) →
      ∃ pre rest, s = pre ++ c :: rest ∧ pre.length = n ∧ c ∉ pre := by
  induction s with
  | nil => intro n h; simp [Index] at h
  | cons a s ih =>
    intro n h
    rw [Index_cons, HasPrefix_single] at h
    by_cases ha : a = c
    · subst ha
      simp at h
      exact ⟨[], s, rfl, by simp; omega, by simp⟩
    · simp only [ha, decide_False, Bool.false_eq_true, if_false] at h
      by_cases hr : Index s [c] < 0
      · simp [hr] at h
      · simp only [hr, if_false] at h
        obtain ⟨m, rfl⟩ : ∃ m, n = m + 1 := ⟨n - 1, by omega⟩
        obtain ⟨pre, rest, h1, h2, h3⟩ := ih m (by push_cast at h; omega)
        refine ⟨a :: pre, rest, by rw [h1]; rfl, by simp [h2], ?_⟩
        simp only [List.mem_cons, not_or]
        exact ⟨fun e => ha e.symm, h3⟩

theorem LastIndex_split (c : Char) (s : GoString) :
    ∀ m : Nat, LastIndex s [c] = (m : Int) →
      ∃ x post, s = x ++ c :: post ∧ x.length = m ∧ c ∉ post := by
  induction s with
  | nil => intro m h; simp [LastIndex] at h
  | cons a s ih =>
    intro m h
    rw [LastIndex_cons, HasPrefix_single] at h
    by_cases hr : 0 ≤ LastIndex s [c]
    · simp only [hr, if_true] at h
      obtain ⟨k, rfl⟩ : ∃ k, m = k + 1 := ⟨m - 1, by omega⟩
      obtain ⟨x, post, h1, h2, h3⟩ := ih k (by push_cast at h; omega)
      exact ⟨a :: x, post, by rw [h1]; rfl, by simp [h2], h3⟩
    · simp only [hr, if_false] at h
      by_cases ha : a = c
      · subst ha
        simp at h
        have hs : a ∉ s := by
          intro hmem
          apply hr
          have key : ∀ (t : GoString), a ∈ t → 0 ≤ LastIndex t [a] := by
            intro t
            induction t with
            | nil => intro h; simp at h
            | cons b t iht =>
              intro hb
              rw [LastIndex_cons, HasPrefix_single]
              by_cases h0 : 0 ≤ LastIndex t [a]
              · simp [h0]; omega
              · have hb2 : b = a := by
                  rcases List.mem_cons.1 hb with e | e
                  · exact e.symm
                  · exact absurd (iht e) h0
                simp [h0, hb2]
          exact key s hmem
        exact ⟨[], s, rfl, by simp; omega, hs⟩
      · simp [ha] at h

end strings

theorem braceSpan_shape (span : GoString) (h1 : span.head? = some lbrace)
    (h2 : span.getLast? = some rbrace) : ∃ mid, span = lbrace :: (mid ++ [rbrace]) := by
  have h := List.dropLast_append_getLast? rbrace (Option.mem_def.2 h2)
  cases span with
  | nil => simp at h1
  | cons a t =>
    simp only [List.head?_cons, Option.some.injEq] at h1
    subst h1
    cases t with
    | nil =>
      simp only [List.dropLast_single, List.nil_append, List.cons.injEq, and_true] at h
      exact absurd h (by decide)
    | cons b t2 =>
      refine ⟨(b :: t2).dropLast, ?_⟩
      rw [List.dropLast_cons₂, List.cons_append] at h
      exact h.symm

theorem extractJSON_of_span (body span : GoString)
    (hp : strings.HasPrefix body callbackText = true) (hs : isBraceSpan body span) :
    extractJSON body = .ok span := by
  obtain ⟨pre, post, hbody, hl, hr, h1, h2⟩ := hs
  obtain ⟨mid, hmid⟩ := braceSpan_shape span h1 h2
  subst hmid
  have e1 : body = pre ++ lbrace :: (mid ++ [rbrace] ++ post) := by
    rw [hbody]; simp
  have e2 : body = (pre ++ lbrace :: mid) ++ rbrace :: post := by
    rw [hbody]; simp
  have i1 : strings.Index body [lbrace] = pre.length := by
    rw [e1]; exact strings.Index_first lbrace pre _ hl
  have i2 : strings.LastIndex body [rbrace] = (pre ++ lbrace :: mid).length := by
    rw [e2]; exact strings.LastIndex_last rbrace _ post hr
  unfold extractJSON
  simp only [hp, if_true, i1, i2]
  have hcond : (0 : Int) ≤ (pre.length : Int) ∧ (0 : Int) ≤ ((pre ++ lbrace :: mid).length : Int)
      ∧ (pre.length : Int) < ((pre ++ lbrace :: mid).length : Int) := by
    simp only [List.length_append, List.length_cons]
    omega
  rw [if_pos hcond]
  congr 1
  unfold sliceStr
  simp only [Int.toNat_ofNat]
  have t1 : body.take ((pre ++ lbrace :: mid).length + 1) = pre ++ lbrace :: (mid ++ [rbrace]) := by
    have e3 : body = (pre ++ lbrace :: (mid ++ [rbrace])) ++ post := by rw [hbody]
    rw [e3]
    exact List.take_left' (by simp; omega)
  rw [t1]
  exact List.drop_left' rfl

theorem braceSpan_of_indices (body : GoString) (n m : Nat)
    (h1 : strings.Index body [lbrace] = (n : Int))
    (h2 : strings.LastIndex body [rbrace] = (m : Int)) (hlt : n < m) :
    ∃ span, isBraceSpan body span := by
  obtain ⟨pre, rest, hb1, hn, hl⟩ := strings.Index_split lbrace body n h1
  obtain ⟨x, post, hb2, hm, hr⟩ := strings.LastIndex_split rbrace body m h2
  have heq : pre ++ lbrace :: rest = x ++ rbrace :: post := by rw [← hb1, ← hb2]
  rcases List.append_eq_append_iff.1 heq with ⟨a, ha1, ha2⟩ | ⟨c, hc1, _⟩
  · cases a with
    | nil =>
      simp only [List.append_nil] at ha1
      rw [ha1] at hm
      omega
    | cons h mid =>
      simp only [List.cons_append, List.cons.injEq] at ha2
      obtain ⟨hh, hrest⟩ := ha2
      refine ⟨lbrace :: (mid ++ [rbrace]), pre, post, ?_, hl, hr, rfl, ?_⟩
      · rw [hb1, hrest]
        simp
      · rw [← List.cons_append, List.getLast?_append_of_ne_nil _ (by simp)]
        rfl
  · have := congrArg List.length hc1
    simp only [List.length_append] at this
    omega

theorem extractJSON_shortcut (body : GoString)
    (hp : strings.HasPrefix body callbackText = false) : extractJSON body = .ok body := by
  unfold extractJSON
  simp [hp]

/-- C10, as amended. When the body starts with `updateCenter.post(`, the text
handed to the JSON parser is exactly the span of the body from its first
opening brace to its last closing brace, both included, and when the body has
no such span the loader fails with the invalid-format error instead of
parsing. When the body does not start with `updateCenter.post(`, the whole
body is handed to the parser unchanged (which is right for a raw JSON
document), whatever braces it contains. -/
theorem extractJSON_behaviour (body : GoString) :
    (strings.HasPrefix body callbackText = true →
      (∀ span, isBraceSpan body span → extractJSON body = .ok span)
      ∧ ((¬ ∃ span, isBraceSpan body span) → extractJSON body = .error invalidFormatText))
    ∧ (strings.HasPrefix body callbackText = false → extractJSON body = .ok body) := by
  constructor
  · intro hp
    refine ⟨fun span hs => extractJSON_of_span body span hp hs, ?_⟩
    intro hno
    unfold extractJSON
    simp only [hp, if_true]
    have hcond : ¬ (0 ≤ strings.Index body [lbrace] ∧ 0 ≤ strings.LastIndex body [rbrace]
        ∧ strings.Index body [lbrace] < strings.LastIndex body [rbrace]) := by
      rintro ⟨c1, c2, c3⟩
      apply hno
      apply braceSpan_of_indices body (strings.Index body [lbrace]).toNat
        (strings.LastIndex body [rbrace]).toNat
      · omega
      · omega
      · omega
    rw [if_neg hcond]
  · intro hp
    unfold extractJSON
    simp [hp]

set_option maxRecDepth 100000 in
/-- C10, witness: a wrapped document, and a wrapped body without braces. -/
theorem extractJSON_behaviour_witness :
    strings.HasPrefix "updateCenter.post(\x7b\"plugins\":\x7b\x7d\x7d);".toList callbackText = true
    ∧ extractJSON "updateCenter.post(\x7b\"plugins\":\x7b\x7d\x7d);".toList
        = .ok "\x7b\"plugins\":\x7b\x7d\x7d".toList
    ∧ strings.HasPrefix "\x7b\"plugins\":\x7b\x7d\x7d".toList callbackText = false
    ∧ extractJSON "\x7b\"plugins\":\x7b\x7d\x7d".toList = .ok "\x7b\"plugins\":\x7b\x7d\x7d".toList :=
  ⟨by decide,
    ((extractJSON_behaviour "updateCenter.post(\x7b\"plugins\":\x7b\x7d\x7d);".toList).1
      (by decide)).1 "\x7b\"plugins\":\x7b\x7d\x7d".toList
      ⟨"updateCenter.post(".toList, ");".toList, by decide, by decide, by decide, by decide,
        by decide⟩,
    by decide,
    (extractJSON_behaviour "\x7b\"plugins\":\x7b\x7d\x7d".toList).2 (by decide)⟩

set_option maxRecDepth 100000 in
/-- C10, counterexample: a document wrapped in another callback is handed to
the parser whole, not as its brace span; and a body without any brace that
does not start with `updateCenter.post(` is handed to the parser as well,
instead of failing with the invalid-format error. -/
theorem extractJSON_other_wrapper_counterexample :
    isBraceSpan "callback(\x7b\"plugins\":\x7b\x7d\x7d);".toList "\x7b\"plugins\":\x7b\x7d\x7d".toList
    ∧ extractJSON "callback(\x7b\"plugins\":\x7b\x7d\x7d);".toList
        = .ok "callback(\x7b\"plugins\":\x7b\x7d\x7d);".toList
    ∧ extractJSON "callback(\x7b\"plugins\":\x7b\x7d\x7d);".toList
        ≠ .ok "\x7b\"plugins\":\x7b\x7d\x7d".toList
    ∧ lbrace ∉ "not a document".toList
    ∧ extractJSON "not a document".toList = .ok "not a document".toList
    ∧ extractJSON "not a document".toList ≠ .error invalidFormatText := by
  refine ⟨⟨"callback(".toList, ");".toList, by decide, by decide, by decide, by decide,
    by decide⟩, ?_, ?_, by decide, ?_, ?_⟩
  · exact (extractJSON_shortcut _ (by decide))
  · rw [extractJSON_shortcut _ (by decide)]
    intro h
    have := Except.ok.inj h
    exact absurd this (by decide)
  · exact (extractJSON_shortcut _ (by decide))
  · rw [extractJSON_shortcut _ (by decide)]
    intro h
    cases h

/-! ## Termination of the loops -/

theorem retry_ok_is_last_call (env : Env) (vars : Variables) (n : Nat) :
    ∀ (a : Nat) (err : Option GoString) (st : RunState) (resp : GraphQLSearchResponse),
      a + n = 5 → 0 < n → (retryLoop env vars (List.range' a n) err st).1 = .ok resp →
        st.calls + 1 ≤ (retryLoop env vars (List.range' a n) err st).2.calls
        ∧ env.execute ((retryLoop env vars (List.range' a n) err st).2.calls - 1) vars
            = .ok resp := by
  induction n with
  | zero => intro a err st resp _ h; omega
  | succ n ih =>
    intro a err st resp ha _ hres
    rw [List.range'_succ, retryLoop] at hres ⊢
    cases ho : env.execute st.calls vars with
    | ok response =>
      simp only [ho] at hres ⊢
      simp only [Except.ok.injEq] at hres
      subst hres
      exact ⟨le_refl _, by simpa using ho⟩
    | error e =>
      simp only [ho] at hres ⊢
      by_cases hn : n = 0
      · subst hn
        exfalso
        split at hres
        · simp [retryLoop] at hres
        · split at hres
          · simp at hres
          · simp [retryLoop] at hres
      · split at hres
        · next hr =>
          simp only [hr, if_true]
          obtain ⟨i1, i2⟩ := ih (a + 1) (some e) _ resp (by omega) (by omega) hres
          exact ⟨by simp only at i1; omega, i2⟩
        · next hr =>
          split at hres
          · simp at hres
          · next h4 =>
            simp only [hr, h4, if_false, Bool.false_eq_true]
            obtain ⟨i1, i2⟩ := ih (a + 1) (some e) _ resp (by omega) (by omega) hres
            exact ⟨by simp only at i1; omega, i2⟩

theorem pageLoop_terminates (env : Env) (reg : Registry) (bound : Nat)
    (hbound : ∀ k vars resp, env.execute k vars = .ok resp → resp.HasNextPage = true → k < bound)
    (fuel : Nat) :
    ∀ (vars : Variables) (st : RunState), bound + 1 ≤ fuel + st.calls → 1 ≤ fuel →
      ∃ out, pageLoop env reg fuel vars st = some out := by
  induction fuel with
  | zero => intro vars st _ h; omega
  | succ fuel ih =>
    intro vars st hb _
    rw [pageLoop]
    cases hw : env.limiter st.waits with
    | some e => exact ⟨_, rfl⟩
    | none =>
      simp only
      have hatt : attempts = List.range' 0 5 := by decide
      have hlast := retry_ok_is_last_call env vars 5 0 none
        { st with waits := st.waits + 1, trace := st.trace ++ [Event.wait none] }
      rw [← hatt] at hlast
      generalize retryLoop env vars attempts none
        { st with waits := st.waits + 1, trace := st.trace ++ [Event.wait none] } = res at hlast
      obtain ⟨fetch, st1⟩ := res
      cases fetch with
      | error e => exact ⟨_, rfl⟩
      | ok response =>
        simp only
        obtain ⟨l1, l2⟩ := hlast response (by omega) (by omega) rfl
        simp only at l1 l2
        obtain ⟨_, _, _, _, p5⟩ := processNodes_spec reg response.Nodes st1
        by_cases hn : response.HasNextPage = true
        · simp only [hn, if_true]
          have hk := hbound _ _ _ l2 hn
          apply ih
          · rw [p5]; omega
          · omega
        · simp only [hn]
          exact ⟨_, rfl⟩

theorem windowLoop_terminates (env : Env) (reg : Registry) (bound : Nat)
    (hbound : ∀ k vars resp, env.execute k vars = .ok resp → resp.HasNextPage = true → k < bound)
    (endDate : Time) (pageFuel : Nat) (hpf : bound + 1 ≤ pageFuel) (fuel : Nat) :
    ∀ (startDate : Time) (st : RunState) (ws : List (Date × Date)),
      monthWindows fuel startDate endDate = some ws →
        ∃ out, windowLoop env reg endDate pageFuel fuel startDate st = some out := by
  induction fuel with
  | zero =>
    intro startDate st ws h
    rw [monthWindows] at h
    rw [windowLoop]
    split at h
    · cases h
    · next hb => simp only [hb]; exact ⟨_, rfl⟩
  | succ fuel ih =>
    intro startDate st ws h
    rw [monthWindows] at h
    rw [windowLoop]
    split at h
    · next hb =>
      simp only [hb, if_true]
      obtain ⟨out, hout⟩ := pageLoop_terminates env reg bound hbound pageFuel
        { query := searchQuery "jenkinsci".toList startDate (windowEnd startDate endDate),
          cursor := none } st (by omega) (by omega)
      rw [hout]
      obtain ⟨r, st1⟩ := out
      cases r with
      | some e => exact ⟨_, rfl⟩
      | none =>
        simp only
        simp only at h
        split at h
        · next ws2 hws2 => exact ih _ st1 ws2 hws2
        · cases h
    · next hb => simp only [hb]; exact ⟨_, rfl⟩

theorem windows_of_range (s e : Date) (hs : s.valid) (he : e.valid) (hle : s.le e = true)
    (out found : GoString) (fuel : Nat) (hfuel : monthsTouched s e ≤ fuel) :
    monthWindows fuel (mkConfig s e out found).StartDate (mkConfig s e out found).EndDate
      = some (specWindows (monthsTouched s e) s e) := by
  have hord : monthIndex s ≤ monthIndex e ∧ (monthIndex s = monthIndex e → s.day ≤ e.day) := by
    obtain ⟨y, m, d⟩ := s
    obtain ⟨y2, m2, d2⟩ := e
    obtain ⟨hm1, hm2, _, _⟩ := hs
    obtain ⟨hn1, hn2, _, _⟩ := he
    simp only [Date.le, Date.lt, Bool.or_eq_true, Bool.and_eq_true, decide_eq_true_eq,
      Date.mk.injEq] at hle
    simp only [monthIndex] at *
    constructor
    · rcases hle with (h | ⟨h1, h2 | ⟨h3, h4⟩⟩) | ⟨h1, h2, h3⟩ <;> omega
    · intro heq
      rcases hle with (h | ⟨h1, h2 | ⟨h3, h4⟩⟩) | ⟨h1, h2, h3⟩ <;> omega
  obtain ⟨k, hk⟩ : ∃ k : Nat, monthIndex e = monthIndex s + k :=
    ⟨(monthIndex e - monthIndex s).toNat, by omega⟩
  have hN : monthsTouched s e = k + 1 := by
    unfold monthsTouched; omega
  have hday : k = 0 → s.day ≤ e.day := by
    intro h0; apply hord.2; omega
  obtain ⟨c1, c2⟩ := mkConfig_dates s e out found
  rw [hN, c1, c2]
  exact (windows_main e he k s hs hk hday).1 fuel (by omega)

/-- Enough fuel gives a result: for calendar dates `s ≤ e`, when only the
first `bound` executor calls can announce a further page, a window budget of
the number of months touched and a page budget of `bound + 1` make
`fetchPullRequestsGraphQL` return. -/
theorem fetch_terminates (env : Env) (reg : Registry) (found0 : GoSlice PullRequestData)
    (bound : Nat)
    (hbound : ∀ k vars resp, env.execute k vars = .ok resp → resp.HasNextPage = true → k < bound)
    (s e : Date) (hs : s.valid) (he : e.valid) (hle : s.le e = true) (out found : GoString)
    (windowFuel pageFuel : Nat) (hwf : monthsTouched s e ≤ windowFuel)
    (hpf : bound + 1 ≤ pageFuel) :
    ∃ r, fetchPullRequestsGraphQL env (mkConfig s e out found) reg found0 windowFuel pageFuel
      = some r := by
  have hw := windows_of_range s e hs he hle out found windowFuel hwf
  obtain ⟨o, ho⟩ := windowLoop_terminates env reg bound hbound _ pageFuel hpf windowFuel
    _ (RunState.init found0) _ hw
  unfold fetchPullRequestsGraphQL
  rw [ho]
  obtain ⟨r, st⟩ := o
  cases r with
  | some e1 => exact ⟨_, rfl⟩
  | none => exact ⟨_, rfl⟩

/-! ## The window loop sends the queries of the month windows -/

theorem execQueries_append (a b : List Event) :
    execQueries (a ++ b) = execQueries a ++ execQueries b := by
  induction a with
  | nil => rfl
  | cons ev a ih =>
    cases ev with
    | wait w => simpa [execQueries] using ih
    | sleep n => simpa [execQueries] using ih
    | exec v o => simp [execQueries, ih]

theorem specRetryTrace_queries (vars : Variables) (outs : List PageFetch) :
    ∀ i : Nat, ∃ k, execQueries (specRetryTrace vars i outs) = List.replicate k vars.query
      ∧ (outs ≠ [] → 1 ≤ k) := by
  induction outs with
  | nil => intro i; exact ⟨0, rfl, fun h => absurd rfl h⟩
  | cons o rest ih =>
    intro i
    cases o with
    | ok r => exact ⟨1, rfl, fun _ => le_refl _⟩
    | error e =>
      obtain ⟨k, hk, _⟩ := ih (i + 1)
      rw [specRetryTrace]
      split
      · exact ⟨k + 1, by simp [execQueries, hk, List.replicate_succ], fun _ => by omega⟩
      · split
        · exact ⟨1, rfl, fun _ => le_refl _⟩
        · exact ⟨k + 1, by simp [execQueries, hk, List.replicate_succ], fun _ => by omega⟩

theorem pageLoop_queries (env : Env) (reg : Registry) (fuel : Nat) :
    ∀ (vars : Variables) (st : RunState) (out : Option GoString × RunState),
      pageLoop env reg fuel vars st = some out →
        ∃ k, execQueries out.2.trace = execQueries st.trace ++ List.replicate k vars.query
          ∧ (out.1 = none → 1 ≤ k) := by
  induction fuel with
  | zero => intro vars st out h; simp [pageLoop] at h
  | succ fuel ih =>
    intro vars st out h
    rw [pageLoop] at h
    cases hw : env.limiter st.waits with
    | some e =>
      simp only [hw] at h
      cases h
      exact ⟨0, by simp [execQueries_append, execQueries], by simp⟩
    | none =>
      simp only [hw] at h
      obtain ⟨t1, _, _, _⟩ := retry_spec_trace env vars
        { st with waits := st.waits + 1, trace := st.trace ++ [Event.wait none] }
      generalize retryLoop env vars attempts none
        { st with waits := st.waits + 1, trace := st.trace ++ [Event.wait none] } = res at h t1
      obtain ⟨fetch, st1⟩ := res
      simp only at t1
      obtain ⟨k, hk, hk1⟩ := specRetryTrace_queries vars (outcomesFrom env vars st.calls 5) 1
      have hk2 : 1 ≤ k := hk1 (by simp [outcomesFrom])
      have hq : execQueries st1.trace = execQueries st.trace ++ List.replicate k vars.query := by
        rw [t1, execQueries_append, execQueries_append, hk]
        simp [execQueries]
      cases fetch with
      | error e =>
        simp only at h
        cases h
        exact ⟨k, hq, fun _ => hk2⟩
      | ok response =>
        simp only at h
        obtain ⟨_, _, p3, _, _⟩ := processNodes_spec reg response.Nodes st1
        by_cases hn : response.HasNextPage = true
        · simp only [hn, if_true] at h
          obtain ⟨k2, hq2, _⟩ := ih _ _ _ h
          refine ⟨k + k2, ?_, fun _ => by omega⟩
          rw [hq2, p3, hq, List.replicate_add, ← List.append_assoc]
        · simp only [hn] at h
          cases h
          exact ⟨k, by rw [p3]; exact hq, fun _ => hk2⟩

/-- In a successful run the window loop visits the windows of `monthWindows`,
in order, and the search strings of its executor calls are those of these
windows, each sent at least once. -/
theorem windowLoop_sends_window_queries (env : Env) (reg : Registry) (endDate : Time)
    (pageFuel fuel : Nat) :
    ∀ (startDate : Time) (st st2 : RunState),
      windowLoop env reg endDate pageFuel fuel startDate st = some (none, st2) →
        ∃ ws counts, monthWindows fuel startDate endDate = some ws
          ∧ counts.length = ws.length ∧ (∀ k ∈ counts, 1 ≤ k)
          ∧ execQueries st2.trace = execQueries st.trace ++ repeatedQueries ws counts := by
  induction fuel with
  | zero =>
    intro startDate st st2 h
    rw [windowLoop] at h
    split at h
    · cases h
    · next hb =>
      cases h
      refine ⟨[], [], ?_, rfl, by simp, by simp [repeatedQueries]⟩
      simp [monthWindows, hb]
  | succ fuel ih =>
    intro startDate st st2 h
    rw [windowLoop] at h
    split at h
    · next hb =>
      simp only at h
      split at h
      · cases h
      · cases h
      · next st1 hpage =>
        obtain ⟨k, hq, hk⟩ := pageLoop_queries env reg pageFuel _ _ _ hpage
        obtain ⟨ws, counts, hws, hlen, hpos, hq2⟩ := ih _ _ _ h
        refine ⟨(startDate.date, (windowEnd startDate endDate).date) :: ws, k :: counts,
          ?_, by simp [hlen], ?_, ?_⟩
        · rw [monthWindows]
          simp only [hb, if_true, hws]
        · intro j hj
          rcases List.mem_cons.1 hj with e | e
          · rw [e]; exact hk rfl
          · exact hpos j e
        · rw [hq2, hq]
          simp only [repeatedQueries, List.zipWith_cons_cons, List.flatten_cons,
            List.append_assoc]
          rfl
    · next hb =>
      cases h
      refine ⟨[], [], ?_, rfl, by simp, by simp [repeatedQueries]⟩
      simp [monthWindows, hb]

/-! ## C11: the check status -/

theorem getCommitStatus_nil : getCommitStatus [] = "UNKNOWN".toList := rfl

theorem getCommitStatus_cons (state : GoString) (rest : List GoString) :
    getCommitStatus (state :: rest) = if state = [] then "UNKNOWN".toList else state := rfl

theorem getCommitStatus_ne_nil (commits : List GoString) : getCommitStatus commits ≠ [] := by
  cases commits with
  | nil => rw [getCommitStatus_nil]; decide
  | cons state rest =>
    rw [getCommitStatus_cons]
    by_cases h : state = []
    · rw [if_pos h]; decide
    · rw [if_neg h]; exact h

/-- C11. `getCommitStatus` returns `UNKNOWN` when the commit list is empty or
the rollup state of its first (only requested, most recent) node is the empty
string, and otherwise returns that node's rollup state unchanged. Hence it
returns `UNKNOWN` exactly when the list is empty or that state is the empty
string, for every state that is not itself the text `UNKNOWN` (which the
"otherwise" clause returns unchanged). It never returns the empty string, and
the `CheckStatus` of every record of `allFoundPRs` and of the returned Matched
slice of a run (started with an empty `allFoundPRs`) is never the empty
string. -/
theorem checkStatus_never_empty (commits : List GoString) (env : Env) (config : Config)
    (reg : Registry) (windowFuel pageFuel : Nat) (r : FetchResult)
    (h : fetchPullRequestsGraphQL env config reg none windowFuel pageFuel = some r) :
    (commits = [] ∨ commits.head? = some [] → getCommitStatus commits = "UNKNOWN".toList)
    ∧ (∀ state, commits.head? = some state → state ≠ [] → getCommitStatus commits = state)
    ∧ (getCommitStatus commits = "UNKNOWN".toList ↔
        commits = [] ∨ commits.head? = some [] ∨ commits.head? = some "UNKNOWN".toList)
    ∧ (commits.head? ≠ some "UNKNOWN".toList →
        (getCommitStatus commits = "UNKNOWN".toList ↔
          commits = [] ∨ commits.head? = some []))
    ∧ getCommitStatus commits ≠ []
    ∧ (∀ pr : SearchNode, (foundRecord reg pr).CheckStatus = getCommitStatus pr.Commits
        ∧ (matchedRecord reg pr).CheckStatus = getCommitStatus pr.Commits)
    ∧ (∀ rec ∈ r.final.allFoundPRs.elems, rec.CheckStatus ≠ [])
    ∧ (∀ rec ∈ r.result.elems, rec.CheckStatus ≠ []) := by
  have hunk : ("UNKNOWN".toList : GoString) ≠ [] := by decide
  have hfacts : (commits = [] ∨ commits.head? = some [] →
        getCommitStatus commits = "UNKNOWN".toList)
      ∧ (∀ state, commits.head? = some state → state ≠ [] → getCommitStatus commits = state)
      ∧ (getCommitStatus commits = "UNKNOWN".toList ↔
          commits = [] ∨ commits.head? = some [] ∨ commits.head? = some "UNKNOWN".toList) := by
    cases commits with
    | nil =>
      refine ⟨fun _ => rfl, ?_, ?_⟩
      · intro state hs; simp at hs
      · exact ⟨fun _ => Or.inl rfl, fun _ => rfl⟩
    | cons state rest =>
      rw [getCommitStatus_cons]
      simp only [List.head?_cons, Option.some.injEq]
      by_cases hs : state = []
      · rw [if_pos hs]
        refine ⟨fun _ => rfl, ?_, ?_⟩
        · intro s2 h1 h2
          exact absurd (h1.symm.trans hs) h2
        · exact ⟨fun _ => Or.inr (Or.inl hs), fun _ => rfl⟩
      · rw [if_neg hs]
        refine ⟨?_, ?_, ?_⟩
        · rintro (h1 | h1)
          · cases h1
          · exact absurd h1 hs
        · intro s2 h1 _
          exact h1
        · constructor
          · intro h1; exact Or.inr (Or.inr h1)
          · rintro (h1 | h1 | h1)
            · cases h1
            · exact absurd h1 hs
            · exact h1
  obtain ⟨f1, f2, f3⟩ := hfacts
  obtain ⟨hc, hres, hres2⟩ := fetch_collected env config reg none windowFuel pageFuel r h
  have f4 : commits.head? ≠ some "UNKNOWN".toList →
      (getCommitStatus commits = "UNKNOWN".toList ↔
        commits = [] ∨ commits.head? = some []) := by
    intro hne
    constructor
    · intro hres
      rcases f3.1 hres with h1 | h1 | h1
      · exact Or.inl h1
      · exact Or.inr h1
      · exact absurd h1 hne
    · exact f1
  refine ⟨f1, f2, f3, f4, getCommitStatus_ne_nil commits, fun pr => ⟨rfl, rfl⟩, ?_, ?_⟩
  · intro rec hrec
    have hf : r.final.allFoundPRs.elems = (received r.final.trace).map (foundRecord reg) := by
      simpa [GoSlice.elems] using hc.1
    rw [hf, List.mem_map] at hrec
    obtain ⟨pr, _, rfl⟩ := hrec
    exact getCommitStatus_ne_nil pr.Commits
  · intro rec hrec
    by_cases hok : r.err = none
    · rw [hres hok, hc.2, List.mem_map] at hrec
      obtain ⟨pr, _, rfl⟩ := hrec
      exact getCommitStatus_ne_nil pr.Commits
    · rw [hres2 hok] at hrec
      simp [GoSlice.elems] at hrec

set_option maxRecDepth 100000 in
/-- C11, witness: in the sample run the three records of `allFoundPRs` and
the matched record carry the status `SUCCESS` of the first commit node; a
result without rollup state gets `UNKNOWN`, and for the state `FAILURE` the
function returns `UNKNOWN` exactly when the list is empty or the state is
empty, that is, it does not. -/
theorem checkStatus_never_empty_witness :
    fetchPullRequestsGraphQL sampleEnv sampleConfig sampleRegistry none 1 1 = some sampleResult
    ∧ getCommitStatus [[]] = "UNKNOWN".toList
    ∧ getCommitStatus ["SUCCESS".toList] = "SUCCESS".toList
    ∧ (getCommitStatus ["FAILURE".toList] = "UNKNOWN".toList ↔
        (["FAILURE".toList] = ([] : List GoString)
          ∨ (["FAILURE".toList] : List GoString).head? = some []))
    ∧ sampleResult.final.allFoundPRs.elems.map (fun rec => rec.CheckStatus)
        = ["SUCCESS".toList, "SUCCESS".toList, "SUCCESS".toList]
    ∧ (∀ rec ∈ sampleResult.result.elems, rec.CheckStatus ≠ []) :=
  ⟨sampleRun_eq,
    (checkStatus_never_empty [[]] sampleEnv sampleConfig sampleRegistry 1 1 sampleResult
      sampleRun_eq).1 (Or.inr rfl),
    (checkStatus_never_empty ["SUCCESS".toList] sampleEnv sampleConfig sampleRegistry 1 1
      sampleResult sampleRun_eq).2.1 "SUCCESS".toList rfl (by decide),
    (checkStatus_never_empty ["FAILURE".toList] sampleEnv sampleConfig sampleRegistry 1 1
      sampleResult sampleRun_eq).2.2.2.1 (by decide),
    by decide,
    (checkStatus_never_empty [] sampleEnv sampleConfig sampleRegistry 1 1 sampleResult
      sampleRun_eq).2.2.2.2.2.2.2⟩

set_option maxRecDepth 100000 in
/-- A first node whose rollup state is the text `UNKNOWN` is returned
unchanged, like every other non-empty state. -/
theorem getCommitStatus_passes_unknown_through :
    getCommitStatus ["UNKNOWN".toList] = "UNKNOWN".toList := by
  decide

end JenkinsPrCollector
